import Mathlib

/-!
Verification development for the docmod workflow-orchestration engine.

The engine core lives in `celery_tasks.py` (scheduling, gating, node
execution, finalization, cancellation), `graphq_validator.py` (graph
analysis: cycle detection, level partitioning, dependency lookup,
validation) and `code_executor.py` (the node runner).  The definitions
below are shallow embeddings of those functions: Python dicts become
association lists or functions, mutable loops become folds or fueled
recursion, exceptions become `Except`/`Option`, and the opaque user-code
runner becomes an oracle parameter.
-/

namespace Docmod

/-- Status enumeration used for both executions and node executions
(`models.ExecutionStatus`, mirrored in `graphql_types.ExecutionStatus`). -/
inductive ExecutionStatus where
| pending
| running
| success
| failed
| cancelled
| timeout
deriving DecidableEq, Repr

/-- Edge condition enumeration (`models.EdgeCondition`). -/
inductive EdgeCondition where
| on_success
| on_failure
| always
deriving DecidableEq, Repr

/-- An edge as consumed by the validator and by `check_dependencies`:
source node key, target node key, condition. -/
structure EdgeRec where
source_node_key : String
target_node_key : String
condition : EdgeCondition
deriving DecidableEq, Repr

/-- Opaque Python value, as carried in `output_data` / `input_data` /
runner outputs.  The engine never inspects these beyond dict access on
the key `"result"` and truthiness. -/
inductive PyObj where
| pyNone
| pyBool (b : Bool)
| pyInt (n : Int)
| pyStr (s : String)
| pyDict (fields : List (String × PyObj))

/-- Python truthiness of an optional value (`if dep_exec.output_data:`). -/
def truthy : Option PyObj → Bool
| none => false
| some .pyNone => false
| some (.pyBool b) => b
| some (.pyInt n) => decide (n ≠ 0)
| some (.pyStr s) => decide (s ≠ "")
| some (.pyDict fs) => !fs.isEmpty

/-- Python `d.get(k)` on an optional dict value, defaulting to `None`
(models `dep_exec.output_data.get('result')`). -/
def pyDictGet : Option PyObj → String → PyObj
| some (.pyDict fs), k => ((fs.find? (fun p => p.1 == k)).map (fun p => p.2)).getD .pyNone
| _, _ => .pyNone

/-- Python dict assignment `d[k] = v` on an association list: overwrite
the existing binding if present, else append. -/
def dictSet (d : List (String × PyObj)) (k : String) (v : PyObj) : List (String × PyObj) :=
if d.any (fun p => p.1 == k) then d.map (fun p => if p.1 == k then (k, v) else p)
else d ++ [(k, v)]

/-- A `NodeExecution` row (the fields the engine reads and writes). -/
structure NodeExecution where
status : ExecutionStatus
input_data : Option (List (String × PyObj)) := none
output_data : Option PyObj := none
error_message : Option String := none
started_at : Option Nat := none
completed_at : Option Nat := none
celery_task_id : Option String := none

/-- An `Execution` row (the fields the engine reads and writes). -/
structure Execution where
status : ExecutionStatus
error_message : Option String := none
started_at : Option Nat := none
completed_at : Option Nat := none

/-- Message produced by `code_executor.TimeoutException` when the
deadline is exceeded: the runner reports a timeout as an ordinary
failure carrying this string. -/
def timeout_message (seconds : Nat) : String :=
"Code execution exceeded " ++ toString seconds ++ " seconds"

namespace GraphValidator

/-- The validator's construction data: node keys (as supplied, possibly
with duplicates, which the Python dict comprehension collapses keeping
first-occurrence order) and edges. -/
structure Graph where
nodes : List String
edges : List EdgeRec
deriving DecidableEq, Repr

/-- Accumulator loop of `dedupKeys`: keep a key the first time it is
seen, drop later occurrences. -/
def dedupKeysGo : List String → List String → List String
| [], _ => []
| k :: ks, seen => if k ∈ seen then dedupKeysGo ks seen else k :: dedupKeysGo ks (k :: seen)

/-- First-occurrence deduplication, modelling the key order of the
Python dict `{n['node_key']: n for n in nodes}`. -/
def dedupKeys (l : List String) : List String := dedupKeysGo l []

/-- Node-key set of the validator (`self.nodes`, key view). -/
def keys (g : Graph) : List String := dedupKeys g.nodes

/-- Adjacency targets of a node, in edge order
(`self.adj_list[u]`, targets only). -/
def adjTargets (g : Graph) (u : String) : List String :=
(g.edges.filter (fun e => e.source_node_key == u)).map (fun e => e.target_node_key)

/-- Dependencies of a node (`get_dependencies`): every key `nk` is
listed once per edge `nk → node_key`, in key-then-edge order. -/
def get_dependencies (g : Graph) (node_key : String) : List String :=
(keys g).flatMap (fun nk => ((adjTargets g nk).filter (fun t => t == node_key)).map (fun _ => nk))

/-- The neighbour loop of `dfs`: recurse (via `step`, the depth-limited
`dfs` of the caller) into unvisited neighbours, threading the visited
set, report a cycle when a neighbour sits on the recursion stack, and
otherwise continue. -/
def dfsNbrs (step : String → List String → List String → Bool × List String) :
    List String → List String → List String → Bool × List String
| [], visited, _ => (false, visited)
| n :: ns, visited, rec =>
  if n ∈ visited then
    if n ∈ rec then (true, visited)
    else dfsNbrs step ns visited rec
  else
    match step n visited rec with
    | (true, visited1) => (true, visited1)
    | (false, visited1) => dfsNbrs step ns visited1 rec

/-- One call of the inner `dfs` of `has_cycle`: visit `u` (marking it
visited and pushing it on the recursion stack) and scan its neighbours.
Fuel bounds the recursion depth; it is chosen large enough below that
it is never exhausted. -/
def dfsNode (g : Graph) : Nat → String → List String → List String → Bool × List String
| 0, _, visited, _ => (false, visited)
| fuel + 1, u, visited, rec =>
  dfsNbrs (dfsNode g fuel) (adjTargets g u) (u :: visited) (u :: rec)

/-- The outer loop of `has_cycle`: start a DFS from every not-yet
visited node key, in key order. -/
def dfsForest (g : Graph) (fuel : Nat) : List String → List String → Bool
| [], _ => false
| k :: ks, visited =>
  if k ∈ visited then dfsForest g fuel ks visited
  else
    match dfsNode g fuel k visited [] with
    | (true, _) => true
    | (false, visited1) => dfsForest g fuel ks visited1

/-- Every node the DFS can ever visit: the known keys together with all
edge targets.  Its size bounds the recursion depth. -/
def universeList (g : Graph) : List String :=
keys g ++ g.edges.map (fun e => e.target_node_key)

/-- The method `has_cycle`: DFS with a recursion stack over all keys. -/
def has_cycle (g : Graph) : Bool :=
dfsForest g ((universeList g).length + 1) (keys g) []

/-- Phase 1 of `get_execution_levels` (and of `topological_sort`):
compute in-degrees by iterating every key's adjacency list.  Python
raises `KeyError` when an edge of a known source targets an unknown
key; the error value is that key. -/
def in_degree_init (g : Graph) : Except String (String → Int) :=
(keys g).foldlM
  (fun c k =>
    (adjTargets g k).foldlM
      (fun c2 t =>
        if t ∈ keys g then Except.ok (fun v => if v = t then c2 t + 1 else c2 v)
        else Except.error t)
      c)
  (fun _ => (0 : Int))

/-- One decrement of the level loop: `in_degree[nbr] -= 1`, appending
`nbr` to the next level exactly when the new value is `0`. -/
def levelStep (st : (String → Int) × List String) (t : String) : (String → Int) × List String :=
((fun v => if v = t then st.1 t - 1 else st.1 v),
 if st.1 t - 1 = 0 then st.2 ++ [t] else st.2)

/-- Processing of one level: decrement the in-degree of every adjacency
target of every node of the level, in order, collecting the next
level. -/
def processLevel (g : Graph) (c : String → Int) (cur : List String) :
    (String → Int) × List String :=
(cur.flatMap (adjTargets g)).foldl levelStep (c, [])

/-- The `while current_level:` loop of `get_execution_levels`.  The fuel
`keys.length + 1` given below always suffices, because the levels are
nonempty and pairwise disjoint subsets of the keys. -/
def kahnLoop (g : Graph) : Nat → (String → Int) → List String → List (List String)
| 0, _, _ => []
| fuel + 1, c, cur =>
  if cur.isEmpty then []
  else cur :: kahnLoop g fuel (processLevel g c cur).1 (processLevel g c cur).2

/-- The method `get_execution_levels`: group nodes into levels for
parallel execution.  The only exception it can raise is the `KeyError`
of phase 1. -/
def get_execution_levels (g : Graph) : Except String (List (List String)) := do
  let c ← in_degree_init g
  return kahnLoop g ((keys g).length + 1) c ((keys g).filter (fun k => c k = 0))

/-- The edge scan of `validate`: first message about an edge endpoint
that is not a known node key, in edge order, source checked before
target. -/
def validateEdges (g : Graph) : List EdgeRec → Option String
| [] => none
| e :: es =>
  if e.source_node_key ∉ keys g then
    some ("Edge references non-existent source node: " ++ e.source_node_key)
  else if e.target_node_key ∉ keys g then
    some ("Edge references non-existent target node: " ++ e.target_node_key)
  else validateEdges g es

/-- The method `validate`: `(is_valid, error_message)`. -/
def validate (g : Graph) : Bool × String :=
if keys g = [] then (false, "Graph has no nodes")
else if has_cycle g then (false, "Graph contains a cycle")
else
  match validateEdges g g.edges with
  | some msg => (false, msg)
  | none => (true, "")

end GraphValidator

/-- Observable outcome of one `execute_graph` task (the dispatch path of
`celery_tasks.py`): the execution status it leaves behind, its error
message, which node executions were created, whether level 0 was
dispatched, and whether the `execute_level` chain (which, absent
cancellation, always ends in `finalize_execution`) was started at
all. -/
structure ExecuteGraphOutcome where
status : ExecutionStatus
error_message : Option String
created_node_execs : List String
dispatched_level : Option Nat
finalize_invoked : Bool

/-- The `execute_level` chain viewed as the question whether
`finalize_execution` is eventually invoked when no cancellation is
observed: `execute_level(idx)` calls `finalize_execution` once
`idx ≥ len(levels)` and otherwise continues with `idx + 1`. -/
def execute_level_chain (levels : List (List String)) (idx : Nat) : Bool :=
if levels.length ≤ idx then true
else execute_level_chain levels (idx + 1)
termination_by levels.length - idx
decreasing_by omega

/-- The `execute_graph` task: set the execution RUNNING, compute the
levels (writing FAILED with the analyser's reason if that raises), then
create the node executions and dispatch level 0 only when the level
list is nonempty.  The `KeyError` payload is rendered with Python's
quoting. -/
def execute_graph (g : GraphValidator.Graph) : ExecuteGraphOutcome :=
match GraphValidator.get_execution_levels g with
| .error k =>
  { status := .failed
    error_message := some ("Graph validation failed: '" ++ k ++ "'")
    created_node_execs := []
    dispatched_level := none
    finalize_invoked := false }
| .ok levels =>
  { status := .running
    error_message := none
    created_node_execs := GraphValidator.keys g
    dispatched_level := if levels.isEmpty then none else some 0
    finalize_invoked := if levels.isEmpty then false else execute_level_chain levels 0 }

/-- Edge-condition lookup inside `check_dependencies`: the first edge
`dep_key → node_key` (edge order) supplies the condition; `none`
models Python's `edge_condition = None` when no edge matches. -/
def find_edge_condition (edges : List EdgeRec) (dep_key node_key : String) : Option EdgeCondition :=
(edges.find? (fun e => e.source_node_key == dep_key && e.target_node_key == node_key)).map
  (fun e => e.condition)

/-- Loop body of `check_dependencies`: walk the dependency list, failing
fast exactly where the Python loop returns `(False, {})`, and otherwise
accumulating the input bundle.  `db` maps a node key to its
`NodeExecution` row (via `node_exec_map` and the query by id). -/
def check_dependencies_go (db : String → Option NodeExecution) (node_key : String)
    (edges : List EdgeRec) :
    List String → List (String × PyObj) → Bool × List (String × PyObj)
| [], inputs => (true, inputs)
| dep :: rest, inputs =>
  match db dep with
  | none => (false, [])
  | some dep_exec =>
    if dep_exec.status ≠ .success ∧ dep_exec.status ≠ .failed then (false, [])
    else if find_edge_condition edges dep node_key = some .on_success ∧
        dep_exec.status ≠ .success then (false, [])
    else if find_edge_condition edges dep node_key = some .on_failure ∧
        dep_exec.status ≠ .failed then (false, [])
    else
      check_dependencies_go db node_key edges rest
        (if dep_exec.status = .success ∧ truthy dep_exec.output_data then
          dictSet inputs dep (pyDictGet dep_exec.output_data "result")
        else inputs)

/-- The function `check_dependencies` of `celery_tasks.py`: returns
`(should_execute, inputs_from_predecessors)`.  The early return for an
empty dependency list coincides with the loop's base case. -/
def check_dependencies (db : String → Option NodeExecution) (node_key : String)
    (dependencies : List String) (edges : List EdgeRec) : Bool × List (String × PyObj) :=
check_dependencies_go db node_key edges dependencies []

/-- Result of one `execute_node` task: the updated `NodeExecution` row,
whether the runner (`CodeExecutor.execute`) was invoked, and the
`'status'` field of the dict the task returns to the chord. -/
structure ExecuteNodeResult where
node_exec : NodeExecution
runner_invoked : Bool
return_status : String

/-- The `execute_node` task of `celery_tasks.py`, for one node of one
execution.  The gate is recomputed from the graph via
`get_dependencies`/`check_dependencies`; the user-code runner is an
oracle `runner : inputs → (success, output, error)` standing for
`CodeExecutor.execute` on the node's code, constants and context.
`t_gate`, `t_start`, `t_done` are the successive `datetime.utcnow()`
readings. -/
def execute_node (g : GraphValidator.Graph) (db : String → Option NodeExecution)
    (ne : NodeExecution) (node_key task_id : String)
    (runner : List (String × PyObj) → Bool × PyObj × String)
    (t_gate t_start t_done : Nat) : ExecuteNodeResult :=
let deps := GraphValidator.get_dependencies g node_key
let gate := check_dependencies db node_key deps g.edges
if gate.1 = false then
  { node_exec := { ne with status := .cancelled, completed_at := some t_gate }
    runner_invoked := false
    return_status := "skipped" }
else
  let ne1 : NodeExecution :=
    { ne with
      status := .running
      started_at := some t_start
      celery_task_id := some task_id
      input_data := some gate.2 }
  let r := runner gate.2
  { node_exec :=
      { ne1 with
        status := if r.1 then .success else .failed
        output_data := if r.1 then some (.pyDict [("result", r.2.1)]) else none
        error_message := if r.1 then none else some r.2.2
        completed_at := some t_done }
    runner_invoked := true
    return_status := if r.1 then "success" else "failed" }

/-- The `finalize_execution` task: aggregate the execution's status from
its node executions (`all`/`any` over node statuses), given as
`(node name, status)` pairs in the nodes' declared order. -/
def finalize_execution (node_execs : List (String × ExecutionStatus)) (ex : Execution)
    (t : Nat) : Execution :=
let node_statuses := node_execs.map (fun p => p.2)
if node_statuses.all (fun s => s == .success) then
  { ex with status := .success, completed_at := some t }
else if node_statuses.any (fun s => s == .failed) then
  { ex with
    status := .failed
    error_message := some ("Failed nodes: " ++
      String.intercalate ", " ((node_execs.filter (fun p => p.2 == .failed)).map (fun p => p.1)))
    completed_at := some t }
else
  { ex with status := .cancelled, completed_at := some t }

/-- Persistent-plus-ephemeral state touched by cancellation: the
`Execution` row (if any), its `NodeExecution` rows keyed by node key,
and the `status` field of the Redis key `execution:{id}:state`. -/
structure SystemState where
execution : Option Execution
node_executions : List (String × NodeExecution)
redis_status : Option String

/-- The `cancel_execution` Celery task: flip the Redis status flag, then
mark the execution and its PENDING/RUNNING node executions CANCELLED
with `completed_at = now`. -/
def cancel_execution (t : Nat) (s : SystemState) : SystemState :=
let s1 := { s with redis_status := some "cancelled" }
match s1.execution with
| none => s1
| some ex =>
  { s1 with
    execution := some { ex with status := .cancelled, completed_at := some t }
    node_executions := s1.node_executions.map (fun p =>
      if p.2.status = .pending ∨ p.2.status = .running then
        (p.1, { p.2 with status := .cancelled, completed_at := some t })
      else p) }

/-- The caller-facing `Mutation.cancel_execution` of
`graphql_mutation.py` composed with the task it enqueues: refuse unless
the execution exists and is PENDING or RUNNING, else run
`cancel_execution`.  Returns the new state and the payload's `success`
flag. -/
def cancel_execution_mutation (t : Nat) (s : SystemState) : SystemState × Bool :=
match s.execution with
| none => (s, false)
| some ex =>
  if ex.status = .pending ∨ ex.status = .running then (cancel_execution t s, true)
  else (s, false)

namespace GraphValidator

/-- Specification-level edge relation of the digraph handed to the
validator: there is an edge from `u` to `v`. -/
def EdgeStep (g : Graph) (u v : String) : Prop :=
∃ e ∈ g.edges, e.source_node_key = u ∧ e.target_node_key = v

/-- The digraph has a cycle: some node reaches itself by a nonempty
edge walk. -/
def HasCycle (g : Graph) : Prop :=
∃ u, Relation.TransGen (EdgeStep g) u u

/-- Every edge endpoint is a known node key (the data-model invariant
for stored graphs). -/
def WellFormed (g : Graph) : Prop :=
∀ e ∈ g.edges, e.source_node_key ∈ keys g ∧ e.target_node_key ∈ keys g

/-- Incoming edges of `v` that the level algorithm counts: edges whose
source is a known key (only known keys' adjacency lists are scanned). -/
def edges_into (g : Graph) (v : String) : List EdgeRec :=
g.edges.filter (fun e => e.target_node_key == v && decide (e.source_node_key ∈ keys g))

/-- Counted in-degree of a node. -/
def in_degree (g : Graph) (v : String) : Nat :=
(edges_into g v).length

/-- Number of counted incoming edges of `v` whose source lies in `S`. -/
def preds_in (g : Graph) (S : List String) (v : String) : Nat :=
((edges_into g v).filter (fun e => decide (e.source_node_key ∈ S))).length

/-- Union of the levels strictly before index `i`. -/
def UnionTake (Ls : List (List String)) (i : Nat) : List String :=
(Ls.take i).flatten

/-- A path of the digraph from some in-degree-0 root to `v`, given as
its full vertex list (so its edge count is `p.length - 1`). -/
def RootPath (g : Graph) (p : List String) (v : String) : Prop :=
(∃ r rest, p = r :: rest ∧ in_degree g r = 0 ∧ List.Chain (EdgeStep g) r rest) ∧
  p.getLast? = some v

/-- Number of universe nodes not yet visited; the DFS measure. -/
def countRemaining (g : Graph) (vis : List String) : Nat :=
((universeList g).filter (fun x => decide (x ∉ vis))).length

/-- A node that the DFS has finished: visited and off the recursion
stack. -/
def Completed (vis rec : List String) (v : String) : Prop :=
v ∈ vis ∧ v ∉ rec

/-- The DFS invariant: the recursion stack is visited, finished nodes
only step to finished nodes, and no finished node lies on a cycle. -/
def DfsInv (g : Graph) (vis rec : List String) : Prop :=
(∀ r ∈ rec, r ∈ vis) ∧
(∀ v, Completed vis rec v → ∀ w, EdgeStep g v w → Completed vis rec w) ∧
(∀ v, Completed vis rec v → ¬ Relation.TransGen (EdgeStep g) v v)

end GraphValidator

/-- Lookup in an input bundle (Python `inputs[k]`). -/
def lookupInput (inputs : List (String × PyObj)) (k : String) : Option PyObj :=
(inputs.find? (fun p => p.1 == k)).map (fun p => p.2)

/-- Specification-level gate condition for a node with dependency list
`deps`: every dependency has a recorded row whose status is terminal
SUCCESS or FAILED, an ON_SUCCESS edge requires SUCCESS, and an
ON_FAILURE edge requires FAILED (an ALWAYS edge adds no requirement
beyond the SUCCESS-or-FAILED one). -/
def GatePass (db : String → Option NodeExecution) (node_key : String)
    (edges : List EdgeRec) (deps : List String) : Prop :=
∀ d ∈ deps, ∃ ne, db d = some ne ∧ (ne.status = .success ∨ ne.status = .failed) ∧
  (find_edge_condition edges d node_key = some .on_success → ne.status = .success) ∧
  (find_edge_condition edges d node_key = some .on_failure → ne.status = .failed)

section ConcreteInputs

/-- Two-node cyclic graph `a ⇄ b` (concrete input for dispatch-time
cycle behaviour). -/
def gTwoCycle : GraphValidator.Graph :=
{ nodes := ["a", "b"]
  edges := [
    { source_node_key := "a", target_node_key := "b", condition := .on_success },
    { source_node_key := "b", target_node_key := "a", condition := .on_success }] }

/-- Acyclic two-node graph with a duplicated edge `a → b`. -/
def gDupEdge : GraphValidator.Graph :=
{ nodes := ["a", "b"]
  edges := [
    { source_node_key := "a", target_node_key := "b", condition := .on_success },
    { source_node_key := "a", target_node_key := "b", condition := .on_success }] }

/-- One isolated node `k` (no dependencies, gate trivially passes). -/
def gSingle : GraphValidator.Graph :=
{ nodes := ["k"], edges := [] }

/-- Graph `p → k` with an ALWAYS edge. -/
def gAlways : GraphValidator.Graph :=
{ nodes := ["p", "k"]
  edges := [{ source_node_key := "p", target_node_key := "k", condition := .always }] }

/-- Node-execution table where the predecessor `p` has terminal status
CANCELLED. -/
def dbAlwaysCancelled : String → Option NodeExecution :=
fun s => if s = "p" then some { status := .cancelled } else none

/-- Graph `p → k` (ON_SUCCESS) and `q → k` (ALWAYS). -/
def gBundle : GraphValidator.Graph :=
{ nodes := ["p", "q", "k"]
  edges := [
    { source_node_key := "p", target_node_key := "k", condition := .on_success },
    { source_node_key := "q", target_node_key := "k", condition := .always }] }

/-- Node-execution table where `p` succeeded with output `5` and `q`
failed. -/
def dbBundle : String → Option NodeExecution :=
fun s =>
  if s = "p" then some { status := .success, output_data := some (.pyDict [("result", .pyInt 5)]) }
  else if s = "q" then some { status := .failed, error_message := some "boom" }
  else none

/-- Runner oracle that reports a deadline overrun, as
`CodeExecutor.execute` does when `TimeoutException` fires. -/
def runnerTimedOut : List (String × PyObj) → Bool × PyObj × String :=
fun _ => (false, .pyNone, timeout_message 1)

/-- Runner oracle that succeeds with output `None`. -/
def runnerOk : List (String × PyObj) → Bool × PyObj × String :=
fun _ => (true, .pyNone, "")

/-- A node execution already in the terminal status CANCELLED (as
`cancel_execution` leaves a pending node). -/
def neCancelled : NodeExecution :=
{ status := .cancelled, completed_at := some 1 }

/-- A system state with one RUNNING execution and one PENDING node. -/
def sRunning : SystemState :=
{ execution := some { status := .running, started_at := some 0 }
  node_executions := [("a", { status := .pending })]
  redis_status := some "running" }

/-- One node with a self-loop. -/
def gSelfLoop : GraphValidator.Graph :=
{ nodes := ["s"]
  edges := [{ source_node_key := "s", target_node_key := "s", condition := .always }] }

/-- Diamond DAG `a → {b, c} → d`. -/
def gDiamond : GraphValidator.Graph :=
{ nodes := ["a", "b", "c", "d"]
  edges := [
    { source_node_key := "a", target_node_key := "b", condition := .on_success },
    { source_node_key := "a", target_node_key := "c", condition := .on_success },
    { source_node_key := "b", target_node_key := "d", condition := .on_success },
    { source_node_key := "c", target_node_key := "d", condition := .on_success }] }

/-- A rank function certifying that the diamond is acyclic. -/
def rankDiamond : String → Nat :=
fun s => if s = "a" then 0 else if s = "d" then 2 else 1

end ConcreteInputs

/-!
Theorems.  Each claim of the specification is settled by one named
theorem below (plus, where applicable, a counterexample for the claim
as originally stated and a closed witness instantiating proved
hypotheses).
-/

open GraphValidator

/-- C1.  The aggregate computed by `finalize_execution` does not satisfy
invariant I4: on nodes `[SUCCESS, CANCELLED]` (a gate-cancelled node,
zero FAILED/TIMEOUT, at least one SUCCESS) the code writes CANCELLED
where the claim requires SUCCESS, and on a single TIMEOUT node the code
writes CANCELLED where the claim requires FAILED. -/
theorem c1_finalize_aggregate_bug :
    (finalize_execution [("a", .success), ("b", .cancelled)]
      { status := .running } 7).status = .cancelled ∧
    (finalize_execution [("x", .timeout)] { status := .running } 7).status = .cancelled ∧
    ExecutionStatus.cancelled ≠ .success ∧ ExecutionStatus.cancelled ≠ .failed :=
⟨rfl, rfl, by decide, by decide⟩

/-- C2 counterexample.  A cyclic graph raises nothing in
`get_execution_levels` (the cyclic nodes are silently dropped from the
levels), so `execute_graph` leaves the execution RUNNING instead of
writing FAILED. -/
theorem c2_counterexample :
    HasCycle gTwoCycle ∧ (execute_graph gTwoCycle).status = .running ∧
    ExecutionStatus.running ≠ .failed := by
  refine ⟨⟨"a", ?_⟩, rfl, by decide⟩
  have hab : EdgeStep gTwoCycle "a" "b" :=
    ⟨{ source_node_key := "a", target_node_key := "b", condition := .on_success },
      by decide, rfl, rfl⟩
  have hba : EdgeStep gTwoCycle "b" "a" :=
    ⟨{ source_node_key := "b", target_node_key := "a", condition := .on_success },
      by decide, rfl, rfl⟩
  exact Relation.TransGen.tail (Relation.TransGen.single hab) hba

/-- C3 counterexample.  A predecessor connected by an ALWAYS edge does
not pass the gate regardless of its terminal status: a CANCELLED
predecessor (a terminal status) makes `check_dependencies` fail because
its status is outside `{SUCCESS, FAILED}`. -/
theorem c3_counterexample :
    (∃ ne, dbAlwaysCancelled "p" = some ne ∧ ne.status = .cancelled) ∧
    find_edge_condition gAlways.edges "p" "k" = some .always ∧
    get_dependencies gAlways "k" = ["p"] ∧
    (check_dependencies dbAlwaysCancelled "k" (get_dependencies gAlways "k")
      gAlways.edges).1 = false :=
⟨⟨{ status := .cancelled }, rfl, rfl⟩, rfl, rfl, rfl⟩

/-- C4 counterexample.  When the runner reports a deadline overrun,
`execute_node` records FAILED, not TIMEOUT. -/
theorem c4_counterexample :
    (execute_node gSingle (fun _ => none) { status := .pending } "k" "tid"
      runnerTimedOut 1 2 3).node_exec.status = .failed ∧
    (execute_node gSingle (fun _ => none) { status := .pending } "k" "tid"
      runnerTimedOut 1 2 3).node_exec.error_message = some (timeout_message 1) ∧
    ExecutionStatus.failed ≠ .timeout :=
⟨rfl, rfl, by decide⟩

/-- C5.  Statuses are not monotonic: a node execution already in the
terminal status CANCELLED (as `cancel_execution` leaves a pending node
whose `execute_node` task is still queued) is driven through RUNNING to
SUCCESS when its gate passes — the code never re-checks the stored
status before overwriting it. -/
theorem c5_monotonic_status_bug :
    neCancelled.status = .cancelled ∧
    (execute_node gSingle (fun _ => none) neCancelled "k" "tid" runnerOk 1 2 3).node_exec.status
      = .success ∧
    ExecutionStatus.success ≠ .cancelled :=
⟨rfl, rfl, by decide⟩

/-- C8.  The caller-facing cancel operation is idempotent: once a first
`CancelExecution` has taken effect (the mutation found the execution
PENDING or RUNNING and ran the cancellation task), any repeated call is
refused by the mutation's status guard and changes nothing. -/
theorem c8_cancel_idempotent (s : SystemState) (ex : Execution) (t1 t2 : Nat)
    (hexec : s.execution = some ex) (hst : ex.status = .pending ∨ ex.status = .running) :
    (cancel_execution_mutation t2 (cancel_execution_mutation t1 s).1).1 =
      (cancel_execution_mutation t1 s).1 := by
  have h1 : (cancel_execution_mutation t1 s).1 = cancel_execution t1 s := by
    unfold cancel_execution_mutation
    rw [hexec]
    simp [hst]
  rw [h1]
  unfold cancel_execution
  rw [hexec]
  unfold cancel_execution_mutation
  simp

/-- C8 witness: a concrete RUNNING execution, cancelled twice. -/
theorem c8_cancel_idempotent_witness :
    (cancel_execution_mutation 9 (cancel_execution_mutation 5 sRunning).1).1 =
      (cancel_execution_mutation 5 sRunning).1 :=
c8_cancel_idempotent sRunning { status := .running, started_at := some 0 } 5 9 rfl
  (Or.inr rfl)

/-- Helper: the boolean verdict of the dependency loop is exactly the
specification-level gate condition, whatever bundle has been
accumulated so far. -/
theorem check_go_fst_iff (db : String → Option NodeExecution) (nk : String)
    (edges : List EdgeRec) (deps : List String) :
    ∀ acc, ((check_dependencies_go db nk edges deps acc).1 = true ↔
      GatePass db nk edges deps) := by
  induction deps with
  | nil =>
    intro acc
    simp [check_dependencies_go, GatePass]
  | cons dep rest ih =>
    intro acc
    simp only [check_dependencies_go]
    cases hdb : db dep with
    | none =>
      constructor
      · intro h
        simp at h
      · intro hg
        exfalso
        obtain ⟨ne, hne, -⟩ := hg dep (List.mem_cons_self dep rest)
        rw [hdb] at hne
        exact Option.noConfusion hne
    | some de =>
      dsimp only
      have hgp : GatePass db nk edges (dep :: rest) ↔
          ((de.status = .success ∨ de.status = .failed) ∧
            (find_edge_condition edges dep nk = some .on_success → de.status = .success) ∧
            (find_edge_condition edges dep nk = some .on_failure → de.status = .failed)) ∧
          GatePass db nk edges rest := by
        unfold GatePass
        rw [List.forall_mem_cons]
        constructor
        · rintro ⟨⟨ne, hne, hp⟩, hrest⟩
          rw [hdb] at hne
          cases hne
          exact ⟨hp, hrest⟩
        · rintro ⟨hp, hrest⟩
          exact ⟨⟨de, hdb, hp⟩, hrest⟩
      split_ifs with h1 h2 h3 h4
      · constructor
        · intro h
          simp at h
        · intro hg
          rcases (hgp.mp hg).1.1 with h | h
          · exact h1.1 h
          · exact h1.2 h
      · constructor
        · intro h
          simp at h
        · intro hg
          exact h2.2 ((hgp.mp hg).1.2.1 h2.1)
      · constructor
        · intro h
          simp at h
        · intro hg
          exact h3.2 ((hgp.mp hg).1.2.2 h3.1)
      all_goals {
        have hterm : de.status = .success ∨ de.status = .failed := by
          by_contra hc
          push_neg at hc
          exact h1 ⟨hc.1, hc.2⟩
        have hons : find_edge_condition edges dep nk = some .on_success →
            de.status = .success := by
          intro hc
          by_contra hs
          exact h2 ⟨hc, hs⟩
        have honf : find_edge_condition edges dep nk = some .on_failure →
            de.status = .failed := by
          intro hc
          by_contra hs
          exact h3 ⟨hc, hs⟩
        exact (ih _).trans
          ⟨fun hr => hgp.mpr ⟨⟨hterm, hons, honf⟩, hr⟩, fun hc => (hgp.mp hc).2⟩ }

/-- C3 (amended).  The gate passes iff every dependency's recorded
status is SUCCESS or FAILED and matches its edge condition (ON_SUCCESS
demands SUCCESS, ON_FAILURE demands FAILED); an ALWAYS edge imposes
nothing further, but — contrary to the original claim — a predecessor
whose terminal status is outside `{SUCCESS, FAILED}` (CANCELLED or
TIMEOUT) always fails the gate.  When the gate fails, the node
execution is marked CANCELLED with `completed_at` set and the runner is
not invoked. -/
theorem c3_amended (g : GraphValidator.Graph) (db : String → Option NodeExecution)
    (ne : NodeExecution) (node_key task_id : String)
    (runner : List (String × PyObj) → Bool × PyObj × String) (t1 t2 t3 : Nat) :
    ((check_dependencies db node_key (get_dependencies g node_key) g.edges).1 = true ↔
      GatePass db node_key g.edges (get_dependencies g node_key)) ∧
    ((check_dependencies db node_key (get_dependencies g node_key) g.edges).1 = false →
      (execute_node g db ne node_key task_id runner t1 t2 t3).node_exec.status = .cancelled ∧
      (execute_node g db ne node_key task_id runner t1 t2 t3).node_exec.completed_at
        = some t1 ∧
      (execute_node g db ne node_key task_id runner t1 t2 t3).runner_invoked = false) := by
  constructor
  · exact check_go_fst_iff db node_key g.edges (get_dependencies g node_key) []
  · intro hfail
    unfold execute_node
    simp only [hfail]
    exact ⟨rfl, rfl, rfl⟩

/-- C3 witness: the concrete ALWAYS-edge graph with a CANCELLED
predecessor; the gate fails and `execute_node` cancels the node at the
gate timestamp without running it. -/
theorem c3_amended_witness :
    (execute_node gAlways dbAlwaysCancelled { status := .pending } "k" "tid"
      runnerOk 4 5 6).node_exec.status = .cancelled ∧
    (execute_node gAlways dbAlwaysCancelled { status := .pending } "k" "tid"
      runnerOk 4 5 6).node_exec.completed_at = some 4 ∧
    (execute_node gAlways dbAlwaysCancelled { status := .pending } "k" "tid"
      runnerOk 4 5 6).runner_invoked = false :=
(c3_amended gAlways dbAlwaysCancelled { status := .pending } "k" "tid"
  runnerOk 4 5 6).2 rfl

/-- C4 (amended).  When the gate passes and the runner reports the
deadline-exceeded error, `execute_node` records FAILED (never TIMEOUT)
with the timeout text as the error message, and returns an ordinary
`'failed'` result to the chord, so the level's fan-in continues. -/
theorem c4_amended (g : GraphValidator.Graph) (db : String → Option NodeExecution)
    (ne : NodeExecution) (node_key task_id : String) (n : Nat)
    (runner : List (String × PyObj) → Bool × PyObj × String) (t1 t2 t3 : Nat)
    (hgate : (check_dependencies db node_key (get_dependencies g node_key) g.edges).1 = true)
    (hrun : runner (check_dependencies db node_key (get_dependencies g node_key) g.edges).2
      = (false, .pyNone, timeout_message n)) :
    (execute_node g db ne node_key task_id runner t1 t2 t3).node_exec.status = .failed ∧
    (execute_node g db ne node_key task_id runner t1 t2 t3).node_exec.error_message
      = some (timeout_message n) ∧
    (execute_node g db ne node_key task_id runner t1 t2 t3).node_exec.status ≠ .timeout ∧
    (execute_node g db ne node_key task_id runner t1 t2 t3).return_status = "failed" := by
  unfold execute_node
  simp [hgate, hrun]

/-- C4 witness: the isolated node run against the timing-out runner. -/
theorem c4_amended_witness :
    (execute_node gSingle (fun _ => none) { status := .pending } "k" "tid"
      runnerTimedOut 1 2 3).node_exec.status = .failed ∧
    (execute_node gSingle (fun _ => none) { status := .pending } "k" "tid"
      runnerTimedOut 1 2 3).node_exec.error_message = some (timeout_message 1) ∧
    (execute_node gSingle (fun _ => none) { status := .pending } "k" "tid"
      runnerTimedOut 1 2 3).node_exec.status ≠ .timeout ∧
    (execute_node gSingle (fun _ => none) { status := .pending } "k" "tid"
      runnerTimedOut 1 2 3).return_status = "failed" :=
c4_amended gSingle (fun _ => none) { status := .pending } "k" "tid" 1
  runnerTimedOut 1 2 3 rfl rfl

/-- Helper: membership in an adjacency list is existence of an edge. -/
theorem mem_adjTargets (g : GraphValidator.Graph) (u t : String) :
    t ∈ adjTargets g u ↔ ∃ e ∈ g.edges, e.source_node_key = u ∧ e.target_node_key = t := by
  unfold adjTargets
  simp only [List.mem_map, List.mem_filter, beq_iff_eq]
  constructor
  · rintro ⟨e, ⟨he, hs⟩, ht⟩
    exact ⟨e, he, hs, ht⟩
  · rintro ⟨e, he, hs, ht⟩
    exact ⟨e, ⟨he, hs⟩, ht⟩

/-- Helper: an error of the inner in-degree fold is an unknown target
occurring in the scanned list. -/
theorem inner_fold_error (g : GraphValidator.Graph) (l : List String) :
    ∀ (c : String → Int) (err : String),
      l.foldlM
        (fun c2 t =>
          if t ∈ keys g then Except.ok (fun v => if v = t then c2 t + 1 else c2 v)
          else Except.error t) c = .error err →
      err ∈ l ∧ err ∉ keys g := by
  induction l with
  | nil => intro c err h; exact Except.noConfusion h
  | cons t ts ih =>
    intro c err h
    rw [List.foldlM_cons] at h
    by_cases ht : t ∈ keys g
    · rw [if_pos ht] at h
      have h2 := ih _ err h
      exact ⟨List.mem_cons_of_mem t h2.1, h2.2⟩
    · rw [if_neg ht] at h
      have herr : t = err := by
        have : (Except.error t : Except String (String → Int)) = .error err := h
        exact Except.error.inj this
      subst herr
      exact ⟨List.mem_cons_self t ts, ht⟩

/-- Helper: when every scanned target is known, the inner fold
succeeds. -/
theorem inner_fold_ok (g : GraphValidator.Graph) (l : List String)
    (hall : ∀ t ∈ l, t ∈ keys g) :
    ∀ c : String → Int,
      ∃ c2, l.foldlM
        (fun c2 t =>
          if t ∈ keys g then Except.ok (fun v => if v = t then c2 t + 1 else c2 v)
          else Except.error t) c = .ok c2 := by
  induction l with
  | nil => intro c; exact ⟨c, rfl⟩
  | cons t ts ih =>
    intro c
    rw [List.foldlM_cons, if_pos (hall t (List.mem_cons_self t ts))]
    exact ih (fun x hx => hall x (List.mem_cons_of_mem t hx)) _

/-- Helper: an error of `in_degree_init` names an unknown node key that
is the target of an edge leaving a known key, and such an error occurs
exactly when such an edge exists. -/
theorem in_degree_init_error (g : GraphValidator.Graph) :
    (∀ err, in_degree_init g = .error err →
      err ∉ keys g ∧ ∃ e ∈ g.edges, e.source_node_key ∈ keys g ∧ e.target_node_key = err) ∧
    ((∃ err, in_degree_init g = .error err) ↔
      ∃ e ∈ g.edges, e.source_node_key ∈ keys g ∧ e.target_node_key ∉ keys g) := by
  have mainerr : ∀ (ks : List String) (hks : ∀ k ∈ ks, k ∈ keys g) (c : String → Int) (err : String),
      ks.foldlM
        (fun c k =>
          (adjTargets g k).foldlM
            (fun c2 t =>
              if t ∈ keys g then Except.ok (fun v => if v = t then c2 t + 1 else c2 v)
              else Except.error t) c) c = .error err →
      err ∉ keys g ∧ ∃ e ∈ g.edges, e.source_node_key ∈ keys g ∧ e.target_node_key = err := by
    intro ks
    induction ks with
    | nil => intro _ c err h; exact Except.noConfusion h
    | cons k kt ih =>
      intro hks c err h
      rw [List.foldlM_cons] at h
      cases hinner : (adjTargets g k).foldlM
          (fun c2 t =>
            if t ∈ keys g then Except.ok (fun v => if v = t then c2 t + 1 else c2 v)
            else Except.error t) c with
      | ok c1 =>
        rw [hinner] at h
        exact ih (fun x hx => hks x (List.mem_cons_of_mem k hx)) c1 err h
      | error e1 =>
        rw [hinner] at h
        have he1 : e1 = err := Except.error.inj h
        subst he1
        obtain ⟨hmem, hnk⟩ := inner_fold_error g _ c e1 hinner
        obtain ⟨e, he, hs, ht⟩ := (mem_adjTargets g k e1).mp hmem
        exact ⟨hnk, e, he, hs ▸ hks k (List.mem_cons_self k kt), ht⟩
  have mainok : ∀ (ks : List String) (c : String → Int),
      (∀ k ∈ ks, ∀ t ∈ adjTargets g k, t ∈ keys g) →
      ∃ c2, ks.foldlM
        (fun c k =>
          (adjTargets g k).foldlM
            (fun c2 t =>
              if t ∈ keys g then Except.ok (fun v => if v = t then c2 t + 1 else c2 v)
              else Except.error t) c) c = .ok c2 := by
    intro ks
    induction ks with
    | nil => intro c _; exact ⟨c, rfl⟩
    | cons k kt ih =>
      intro c hall
      rw [List.foldlM_cons]
      obtain ⟨c1, hc1⟩ := inner_fold_ok g _ (hall k (List.mem_cons_self k kt)) c
      rw [hc1]
      exact ih c1 (fun x hx => hall x (List.mem_cons_of_mem k hx))
  constructor
  · intro err h
    exact mainerr (keys g) (fun k hk => hk) _ err h
  · constructor
    · rintro ⟨err, herr⟩
      obtain ⟨hnk, e, he, hs, ht⟩ := mainerr (keys g) (fun k hk => hk) _ err herr
      exact ⟨e, he, hs, ht ▸ hnk⟩
    · rintro ⟨e, he, hs, ht⟩
      cases hres : in_degree_init g with
      | error err => exact ⟨err, rfl⟩
      | ok c =>
        exfalso
        apply ht
        unfold in_degree_init at hres
        -- from success, every adjacency target of every key is known
        by_contra hnk
        obtain ⟨err, herr⟩ : ∃ err, (keys g).foldlM
            (fun c k =>
              (adjTargets g k).foldlM
                (fun c2 t =>
                  if t ∈ keys g then Except.ok (fun v => if v = t then c2 t + 1 else c2 v)
                  else Except.error t) c) (fun _ => (0 : Int)) = .error err := by
          -- an error must occur because edge e provides a bad target for key
          -- `e.source_node_key`
          have hbad : ∃ k ∈ keys g, ∃ t ∈ adjTargets g k, t ∉ keys g := by
            refine ⟨e.source_node_key, hs, e.target_node_key, ?_, hnk⟩
            exact (mem_adjTargets g _ _).mpr ⟨e, he, rfl, rfl⟩
          -- fold over a list with a bad element cannot succeed
          clear hres
          obtain ⟨k0, hk0, t0, ht0, hnt0⟩ := hbad
          have : ∀ (ks : List String) (c : String → Int), k0 ∈ ks →
              ¬ ∃ c2, ks.foldlM
                (fun c k =>
                  (adjTargets g k).foldlM
                    (fun c2 t =>
                      if t ∈ keys g then Except.ok (fun v => if v = t then c2 t + 1 else c2 v)
                      else Except.error t) c) c = .ok c2 := by
            intro ks
            induction ks with
            | nil => intro c h; exact absurd h (List.not_mem_nil k0)
            | cons k kt ih2 =>
              intro c hmem ⟨c2, hc2⟩
              rw [List.foldlM_cons] at hc2
              cases hinner : (adjTargets g k).foldlM
                  (fun c2 t =>
                    if t ∈ keys g then Except.ok (fun v => if v = t then c2 t + 1 else c2 v)
                    else Except.error t) c with
              | error e1 => rw [hinner] at hc2; exact Except.noConfusion hc2
              | ok c1 =>
                rw [hinner] at hc2
                rcases List.mem_cons.mp hmem with hk | hk
                · subst hk
                  -- the inner fold over k0's targets cannot succeed
                  have : ∀ (l : List String) (c : String → Int), t0 ∈ l →
                      ¬ ∃ c2, l.foldlM
                        (fun c2 t =>
                          if t ∈ keys g then
                            Except.ok (fun v => if v = t then c2 t + 1 else c2 v)
                          else Except.error t) c = .ok c2 := by
                    intro l
                    induction l with
                    | nil => intro c h; exact absurd h (List.not_mem_nil t0)
                    | cons t ts ih3 =>
                      intro c hmem2 ⟨c3, hc3⟩
                      rw [List.foldlM_cons] at hc3
                      rcases List.mem_cons.mp hmem2 with htk | htk
                      · subst htk
                        rw [if_neg hnt0] at hc3
                        exact Except.noConfusion hc3
                      · by_cases hin : t ∈ keys g
                        · rw [if_pos hin] at hc3
                          exact ih3 _ htk ⟨c3, hc3⟩
                        · rw [if_neg hin] at hc3
                          exact Except.noConfusion hc3
                  exact this _ c ht0 ⟨c1, hinner⟩
                · exact ih2 c1 hk ⟨c2, hc2⟩
          cases hres2 : (keys g).foldlM
              (fun c k =>
                (adjTargets g k).foldlM
                  (fun c2 t =>
                    if t ∈ keys g then Except.ok (fun v => if v = t then c2 t + 1 else c2 v)
                    else Except.error t) c) (fun _ => (0 : Int)) with
          | error err => exact ⟨err, rfl⟩
          | ok c2 => exact absurd ⟨c2, hres2⟩ (this (keys g) _ hk0)
        rw [herr] at hres
        exact Except.noConfusion hres

/-- Helper: the level analysis raises exactly when the in-degree scan
raises. -/
theorem get_execution_levels_error (g : GraphValidator.Graph) (err : String) :
    get_execution_levels g = .error err ↔ in_degree_init g = .error err := by
  constructor
  · intro h2
    unfold get_execution_levels at h2
    cases h : in_degree_init g with
    | ok c =>
      rw [h] at h2
      simp at h2
    | error e =>
      rw [h] at h2
      have : e = err := by
        have h3 : (Except.error e : Except String (List (List String))) = .error err := h2
        exact Except.error.inj h3
      rw [this]
  · intro h2
    unfold get_execution_levels
    rw [h2]
    rfl

/-- C2 (amended).  `execute_graph` writes FAILED with the analyser's
reason (and dispatches nothing, creating no node executions) exactly
when the level computation raises, i.e. when some edge leaving a known
node key targets an unknown key; a cyclic graph whose edges all
reference known keys raises nothing — its cyclic part is silently
dropped from the levels and the execution is left RUNNING (see the
counterexample).  The execution status after dispatch analysis is
always RUNNING or FAILED. -/
theorem c2_amended (g : GraphValidator.Graph) :
    ((execute_graph g).status = .failed ↔
      ∃ e ∈ g.edges, e.source_node_key ∈ keys g ∧ e.target_node_key ∉ keys g) ∧
    ((execute_graph g).status = .failed →
      (execute_graph g).dispatched_level = none ∧
      (execute_graph g).created_node_execs = [] ∧
      ∃ err, (execute_graph g).error_message =
          some ("Graph validation failed: '" ++ err ++ "'") ∧
        err ∉ keys g ∧ ∃ e ∈ g.edges, e.source_node_key ∈ keys g ∧ e.target_node_key = err) ∧
    ((execute_graph g).status = .failed ∨ (execute_graph g).status = .running) := by
  have hchar := in_degree_init_error g
  unfold execute_graph
  cases hres : get_execution_levels g with
  | error err =>
    have hinit : in_degree_init g = .error err := (get_execution_levels_error g err).mp hres
    dsimp only
    refine ⟨⟨fun _ => hchar.2.mp ⟨err, hinit⟩, fun _ => rfl⟩, fun _ => ?_, Or.inl rfl⟩
    obtain ⟨hnk, e, he, hs, ht⟩ := hchar.1 err hinit
    exact ⟨rfl, rfl, err, rfl, hnk, e, he, hs, ht⟩
  | ok levels =>
    have hnoerr : ¬ ∃ e ∈ g.edges, e.source_node_key ∈ keys g ∧ e.target_node_key ∉ keys g := by
      intro hbad
      obtain ⟨err, herr⟩ := hchar.2.mpr hbad
      rw [(get_execution_levels_error g err).mpr herr] at hres
      exact Except.noConfusion hres
    dsimp only
    exact ⟨⟨fun h => absurd h (by decide), fun hbad => absurd hbad hnoerr⟩,
      fun h => absurd h (by decide), Or.inr rfl⟩

/-- Helper: membership in the DFS universe for adjacency targets. -/
theorem adjTargets_subset_universe (g : GraphValidator.Graph) (u t : String)
    (h : t ∈ adjTargets g u) : t ∈ universeList g := by
  obtain ⟨e, he, -, ht⟩ := (mem_adjTargets g u t).mp h
  unfold universeList
  exact List.mem_append_right _ (List.mem_map.mpr ⟨e, he, ht⟩)

/-- Helper: keys lie in the DFS universe. -/
theorem keys_subset_universe (g : GraphValidator.Graph) (k : String) (h : k ∈ keys g) :
    k ∈ universeList g :=
List.mem_append_left _ h

/-- Helper: soundness of the neighbour scan.  If every pending
neighbour is reachable in at least one step from every stack entry and
the scan reports a cycle, the graph has one. -/
theorem dfsNbrs_sound (g : GraphValidator.Graph) (fuel : Nat)
    (Hnode : ∀ u vis rec, (∀ r ∈ rec, Relation.ReflTransGen (EdgeStep g) r u) →
      (dfsNode g fuel u vis rec).1 = true → HasCycle g) :
    ∀ (ns vis rec : List String),
      (∀ n ∈ ns, ∀ r ∈ rec, Relation.TransGen (EdgeStep g) r n) →
      (dfsNbrs (dfsNode g fuel) ns vis rec).1 = true → HasCycle g := by
  intro ns
  induction ns with
  | nil => intro vis rec _ h; simp [dfsNbrs] at h
  | cons n ns ih =>
    intro vis rec hreach h
    rw [dfsNbrs] at h
    by_cases hvis : n ∈ vis
    · rw [if_pos hvis] at h
      by_cases hrec : n ∈ rec
      · exact ⟨n, hreach n (List.mem_cons_self n ns) n hrec⟩
      · rw [if_neg hrec] at h
        exact ih vis rec (fun m hm => hreach m (List.mem_cons_of_mem n hm)) h
    · rw [if_neg hvis] at h
      cases hstep : dfsNode g fuel n vis rec with
      | mk b vis1 =>
        cases b with
        | true =>
          refine Hnode n vis rec ?_ (by rw [hstep])
          intro r hr
          exact (hreach n (List.mem_cons_self n ns) r hr).to_reflTransGen
        | false =>
          rw [hstep] at h
          dsimp only at h
          exact ih vis1 rec (fun m hm => hreach m (List.mem_cons_of_mem n hm)) h

/-- Helper: soundness of one DFS call: a reported cycle is a real
cycle, provided every stack entry reaches the current node. -/
theorem dfsNode_sound (g : GraphValidator.Graph) :
    ∀ (fuel : Nat) (u : String) (vis rec : List String),
      (∀ r ∈ rec, Relation.ReflTransGen (EdgeStep g) r u) →
      (dfsNode g fuel u vis rec).1 = true → HasCycle g := by
  intro fuel
  induction fuel with
  | zero => intro u vis rec _ h; simp [dfsNode] at h
  | succ fuel ih =>
    intro u vis rec hreach h
    rw [dfsNode] at h
    refine dfsNbrs_sound g fuel ih (adjTargets g u) (u :: vis) (u :: rec) ?_ h
    intro n hn r hr
    have hedge : EdgeStep g u n := by
      obtain ⟨e, he, hs, ht⟩ := (mem_adjTargets g u n).mp hn
      exact ⟨e, he, hs, ht⟩
    rcases List.mem_cons.mp hr with hru | hrr
    · subst hru
      exact Relation.TransGen.single hedge
    · exact Relation.TransGen.tail' (hreach r hrr) hedge

/-- Helper: soundness of the DFS forest and hence of `has_cycle`. -/
theorem has_cycle_sound (g : GraphValidator.Graph) (h : has_cycle g = true) :
    HasCycle g := by
  unfold has_cycle at h
  revert h
  generalize ((universeList g).length + 1) = fuel
  generalize ([] : List String) = vis
  generalize keys g = ks
  intro h
  induction ks generalizing vis with
  | nil => simp [dfsForest] at h
  | cons k ks ih =>
    rw [dfsForest] at h
    by_cases hvis : k ∈ vis
    · rw [if_pos hvis] at h
      exact ih vis h
    · rw [if_neg hvis] at h
      cases hstep : dfsNode g fuel k vis [] with
      | mk b vis1 =>
        cases b with
        | true =>
          exact dfsNode_sound g fuel k vis [] (by intro r hr; cases hr) (by rw [hstep])
        | false =>
          rw [hstep] at h
          exact ih vis1 h

/-- Helper: filtering with a stronger predicate keeps fewer elements. -/
theorem length_filter_mono {α : Type} (l : List α) (p q : α → Bool)
    (h : ∀ a ∈ l, p a = true → q a = true) :
    (l.filter p).length ≤ (l.filter q).length := by
  induction l with
  | nil => exact Nat.le_refl 0
  | cons a t ih =>
    have iht := ih (fun x hx => h x (List.mem_cons_of_mem a hx))
    by_cases hpa : p a = true
    · rw [List.filter_cons, if_pos hpa, List.filter_cons,
        if_pos (h a (List.mem_cons_self a t) hpa)]
      exact Nat.succ_le_succ iht
    · rw [List.filter_cons, if_neg hpa]
      by_cases hqa : q a = true
      · rw [List.filter_cons, if_pos hqa]
        exact Nat.le_succ_of_le iht
      · rw [List.filter_cons, if_neg hqa]
        exact iht

/-- Helper: the filtered length drops strictly at a witness the
stronger predicate loses. -/
theorem length_filter_lt {α : Type} (l : List α) (p q : α → Bool)
    (h : ∀ a ∈ l, p a = true → q a = true) (u : α) (hu : u ∈ l)
    (hpu : p u = false) (hqu : q u = true) :
    (l.filter p).length < (l.filter q).length := by
  induction l with
  | nil => cases hu
  | cons a t ih =>
    rcases List.mem_cons.mp hu with hua | hut
    · subst hua
      rw [List.filter_cons, if_neg (by rw [hpu]; exact Bool.false_ne_true),
        List.filter_cons, if_pos hqu]
      exact Nat.lt_succ_of_le
        (length_filter_mono t p q (fun x hx => h x (List.mem_cons_of_mem u hx)))
    · have iht := ih (fun x hx => h x (List.mem_cons_of_mem a hx)) hut
      by_cases hpa : p a = true
      · rw [List.filter_cons, if_pos hpa, List.filter_cons,
          if_pos (h a (List.mem_cons_self a t) hpa)]
        exact Nat.succ_lt_succ iht
      · rw [List.filter_cons, if_neg hpa]
        by_cases hqa : q a = true
        · rw [List.filter_cons, if_pos hqa]
          exact Nat.lt_succ_of_le (Nat.le_of_lt iht)
        · rw [List.filter_cons, if_neg hqa]
          exact iht

/-- Helper: visiting more nodes cannot increase the DFS measure. -/
theorem countRemaining_le (g : GraphValidator.Graph) (vis res : List String)
    (h : ∀ x ∈ vis, x ∈ res) :
    countRemaining g res ≤ countRemaining g vis := by
  unfold countRemaining
  refine length_filter_mono _ _ _ ?_
  intro a _ ha
  simp only [decide_eq_true_eq] at ha ⊢
  exact fun hav => ha (h a hav)

/-- Helper: the DFS measure drops strictly when a universe node is
newly visited. -/
theorem countRemaining_lt (g : GraphValidator.Graph) (vis res : List String)
    (h : ∀ x ∈ vis, x ∈ res) (u : String) (hu : u ∈ universeList g)
    (h1 : u ∉ vis) (h2 : u ∈ res) :
    countRemaining g res < countRemaining g vis := by
  unfold countRemaining
  refine length_filter_lt _ _ _ ?_ u hu ?_ ?_
  · intro a _ ha
    simp only [decide_eq_true_eq] at ha ⊢
    exact fun hav => ha (h a hav)
  · simp [h2]
  · simp [h1]

/-- Helper: finished nodes only reach finished nodes. -/
theorem completed_reach (g : GraphValidator.Graph) (vis rec : List String)
    (hinv : DfsInv g vis rec) (v w : String) (hc : Completed vis rec v)
    (hr : Relation.ReflTransGen (EdgeStep g) v w) : Completed vis rec w := by
  induction hr with
  | refl => exact hc
  | tail _ hbc ih => exact hinv.2.1 _ ih _ hbc

/-- Helper: entering a fresh node preserves the DFS invariant for the
extended stack, with the same finished set. -/
theorem completed_cons_iff (vis rec : List String) (u v : String) (hu : u ∉ vis) :
    Completed (u :: vis) (u :: rec) v ↔ Completed vis rec v := by
  unfold Completed
  constructor
  · rintro ⟨hv, hnr⟩
    have hvu : v ≠ u := fun h => hnr (h ▸ List.mem_cons_self u rec)
    exact ⟨(List.mem_cons.mp hv).resolve_left hvu,
      fun hr => hnr (List.mem_cons_of_mem u hr)⟩
  · rintro ⟨hv, hnr⟩
    have hvu : v ≠ u := fun h => hu (h ▸ hv)
    exact ⟨List.mem_cons_of_mem u hv,
      fun hr => (List.mem_cons.mp hr).elim hvu hnr⟩

/-- Helper: the invariant survives pushing a fresh node on both the
visited set and the stack. -/
theorem dfsInv_push (g : GraphValidator.Graph) (vis rec : List String) (u : String)
    (hinv : DfsInv g vis rec) (hu : u ∉ vis) : DfsInv g (u :: vis) (u :: rec) := by
  refine ⟨?_, ?_, ?_⟩
  · intro r hr
    rcases List.mem_cons.mp hr with h | h
    · exact h ▸ List.mem_cons_self u vis
    · exact List.mem_cons_of_mem u (hinv.1 r h)
  · intro v hv w hw
    rw [completed_cons_iff _ _ _ _ hu] at hv ⊢
    exact hinv.2.1 v hv w hw
  · intro v hv
    rw [completed_cons_iff _ _ _ _ hu] at hv
    exact hinv.2.2 v hv

/-- Helper: post-condition of the neighbour scan on a false result:
visited grows, the invariant holds again, the measure does not
increase, and every scanned neighbour is finished. -/
theorem dfsNbrs_post (g : GraphValidator.Graph) (fuel : Nat)
    (Hnode : ∀ u vis rec res, DfsInv g vis rec → u ∉ vis → u ∈ universeList g →
      countRemaining g vis < fuel → dfsNode g fuel u vis rec = (false, res) →
      (∀ x ∈ vis, x ∈ res) ∧ u ∈ res ∧ DfsInv g res rec ∧
        countRemaining g res < countRemaining g vis) :
    ∀ (ns vis rec res : List String), DfsInv g vis rec →
      (∀ n ∈ ns, n ∈ universeList g) → countRemaining g vis < fuel →
      dfsNbrs (dfsNode g fuel) ns vis rec = (false, res) →
      (∀ x ∈ vis, x ∈ res) ∧ DfsInv g res rec ∧
        countRemaining g res ≤ countRemaining g vis ∧
        (∀ n ∈ ns, Completed res rec n) := by
  intro ns
  induction ns with
  | nil =>
    intro vis rec res hinv _ _ h
    rw [dfsNbrs] at h
    injection h with hb hvis
    subst hvis
    exact ⟨fun x hx => hx, hinv, Nat.le_refl _, fun n hn => absurd hn (List.not_mem_nil n)⟩
  | cons n ns ih =>
    intro vis rec res hinv huniv hcount h
    rw [dfsNbrs] at h
    by_cases hvis : n ∈ vis
    · rw [if_pos hvis] at h
      by_cases hrec : n ∈ rec
      · rw [if_pos hrec] at h
        exact absurd (congrArg Prod.fst h) (by simp)
      · rw [if_neg hrec] at h
        obtain ⟨hsub, hinv2, hcle, hns⟩ :=
          ih vis rec res hinv (fun m hm => huniv m (List.mem_cons_of_mem n hm)) hcount h
        refine ⟨hsub, hinv2, hcle, ?_⟩
        intro m hm
        rcases List.mem_cons.mp hm with hmn | hmns
        · exact hmn ▸ ⟨hsub n hvis, hrec⟩
        · exact hns m hmns
    · rw [if_neg hvis] at h
      cases hstep : dfsNode g fuel n vis rec with
      | mk b vis1 =>
        cases b with
        | true =>
          rw [hstep] at h
          exact absurd (congrArg Prod.fst h) (by simp)
        | false =>
          rw [hstep] at h
          dsimp only at h
          obtain ⟨hsub1, hn1, hinv1, hclt⟩ :=
            Hnode n vis rec vis1 hinv hvis (huniv n (List.mem_cons_self n ns)) hcount hstep
          obtain ⟨hsub2, hinv2, hcle2, hns⟩ :=
            ih vis1 rec res hinv1 (fun m hm => huniv m (List.mem_cons_of_mem n hm))
              (Nat.lt_trans hclt hcount) h
          refine ⟨fun x hx => hsub2 x (hsub1 x hx), hinv2,
            Nat.le_trans hcle2 (Nat.le_of_lt hclt), ?_⟩
          intro m hm
          rcases List.mem_cons.mp hm with hmn | hmns
          · exact hmn ▸ ⟨hsub2 n hn1, fun hr => hvis (hinv.1 n hr)⟩
          · exact hns m hmns

/-- Helper: post-condition of one DFS call on a false result: the node
is finished, the invariant holds again (in particular no finished node
lies on a cycle), and the measure strictly drops. -/
theorem dfsNode_post (g : GraphValidator.Graph) :
    ∀ (fuel : Nat) (u : String) (vis rec res : List String), DfsInv g vis rec →
      u ∉ vis → u ∈ universeList g → countRemaining g vis < fuel →
      dfsNode g fuel u vis rec = (false, res) →
      (∀ x ∈ vis, x ∈ res) ∧ u ∈ res ∧ DfsInv g res rec ∧
        countRemaining g res < countRemaining g vis := by
  intro fuel
  induction fuel with
  | zero => intro u vis rec res _ _ _ hcount _; exact absurd hcount (Nat.not_lt_zero _)
  | succ fuel ih =>
    intro u vis rec res hinv hu huniv hcount h
    rw [dfsNode] at h
    have hstrict : countRemaining g (u :: vis) < countRemaining g vis :=
      countRemaining_lt g vis (u :: vis) (fun x hx => List.mem_cons_of_mem u hx) u huniv hu
        (List.mem_cons_self u vis)
    obtain ⟨hsub, hinv2, hcle, hnbrs⟩ :=
      dfsNbrs_post g fuel ih (adjTargets g u) (u :: vis) (u :: rec) res
        (dfsInv_push g vis rec u hinv hu)
        (fun n hn => adjTargets_subset_universe g u n hn)
        (Nat.lt_of_lt_of_le hstrict (Nat.lt_succ_iff.mp hcount)) h
    have husub : ∀ x ∈ vis, x ∈ res := fun x hx => hsub x (List.mem_cons_of_mem u hx)
    have hures : u ∈ res := hsub u (List.mem_cons_self u vis)
    have hnbrs2 : ∀ w, EdgeStep g u w → Completed res rec w ∧ w ≠ u := by
      intro w hw
      have hwadj : w ∈ adjTargets g u := by
        obtain ⟨e, he, hs, ht⟩ := hw
        exact (mem_adjTargets g u w).mpr ⟨e, he, hs, ht⟩
      obtain ⟨hwres, hwrec⟩ := hnbrs w hwadj
      have hwu : w ≠ u := fun hwu => hwrec (hwu ▸ List.mem_cons_self u rec)
      exact ⟨⟨hwres, fun hr => hwrec (List.mem_cons_of_mem u hr)⟩, hwu⟩
    have hinv3 : DfsInv g res rec := by
      refine ⟨?_, ?_, ?_⟩
      · intro r hr
        exact hinv2.1 r (List.mem_cons_of_mem u hr)
      · intro v hv w hw
        by_cases hvu : v = u
        · subst hvu
          exact (hnbrs2 w hw).1
        · have hv1 : Completed res (u :: rec) v :=
            ⟨hv.1, fun hr => (List.mem_cons.mp hr).elim hvu hv.2⟩
          have := hinv2.2.1 v hv1 w hw
          exact ⟨this.1, fun hr => this.2 (List.mem_cons_of_mem u hr)⟩
      · intro v hv
        by_cases hvu : v = u
        · subst hvu
          intro hcyc
          obtain ⟨c, hedge, hrtg⟩ := Relation.TransGen.head'_iff.mp hcyc
          have hcadj : c ∈ adjTargets g v := by
            obtain ⟨e, he, hs, ht⟩ := hedge
            exact (mem_adjTargets g v c).mpr ⟨e, he, hs, ht⟩
          have hu1 : Completed res (v :: rec) v :=
            completed_reach g res (v :: rec) hinv2 c v (hnbrs c hcadj) hrtg
          exact hu1.2 (List.mem_cons_self v rec)
        · have hv1 : Completed res (u :: rec) v :=
            ⟨hv.1, fun hr => (List.mem_cons.mp hr).elim hvu hv.2⟩
          exact hinv2.2.2 v hv1
    exact ⟨husub, hures, hinv3, Nat.lt_of_le_of_lt hcle hstrict⟩

/-- Helper: post-condition of the DFS forest on a false result: some
final visited set covers all scanned roots and satisfies the invariant
with an empty stack. -/
theorem dfsForest_post (g : GraphValidator.Graph) (fuel : Nat) :
    ∀ (ks vis : List String), DfsInv g vis [] → (∀ k ∈ ks, k ∈ universeList g) →
      countRemaining g vis < fuel → dfsForest g fuel ks vis = false →
      ∃ res, (∀ x ∈ vis, x ∈ res) ∧ DfsInv g res [] ∧ ∀ k ∈ ks, k ∈ res := by
  intro ks
  induction ks with
  | nil =>
    intro vis hinv _ _ _
    exact ⟨vis, fun x hx => hx, hinv, fun k hk => absurd hk (List.not_mem_nil k)⟩
  | cons k ks ih =>
    intro vis hinv huniv hcount h
    rw [dfsForest] at h
    by_cases hvis : k ∈ vis
    · rw [if_pos hvis] at h
      obtain ⟨res, hsub, hinv2, hks⟩ :=
        ih vis hinv (fun m hm => huniv m (List.mem_cons_of_mem k hm)) hcount h
      refine ⟨res, hsub, hinv2, ?_⟩
      intro m hm
      rcases List.mem_cons.mp hm with hmk | hmks
      · exact hmk ▸ hsub k hvis
      · exact hks m hmks
    · rw [if_neg hvis] at h
      cases hstep : dfsNode g fuel k vis [] with
      | mk b vis1 =>
        cases b with
        | true => rw [hstep] at h; exact absurd h (by simp)
        | false =>
          rw [hstep] at h
          obtain ⟨hsub1, hk1, hinv1, hclt⟩ :=
            dfsNode_post g fuel k vis [] vis1 hinv hvis (huniv k (List.mem_cons_self k ks))
              hcount hstep
          obtain ⟨res, hsub2, hinv2, hks⟩ :=
            ih vis1 hinv1 (fun m hm => huniv m (List.mem_cons_of_mem k hm))
              (Nat.lt_trans hclt hcount) h
          refine ⟨res, fun x hx => hsub2 x (hsub1 x hx), hinv2, ?_⟩
          intro m hm
          rcases List.mem_cons.mp hm with hmk | hmks
          · exact hmk ▸ hsub2 k hk1
          · exact hks m hmks

/-- Helper: completeness of `has_cycle` on well-formed graphs: if the
DFS reports no cycle, there is none. -/
theorem has_cycle_complete (g : GraphValidator.Graph) (hwf : WellFormed g)
    (h : has_cycle g = false) : ¬ HasCycle g := by
  rintro ⟨u, hcyc⟩
  unfold has_cycle at h
  have hinv0 : DfsInv g [] [] := by
    refine ⟨fun r hr => absurd hr (List.not_mem_nil r), ?_, ?_⟩
    · intro v hv
      exact absurd hv.1 (List.not_mem_nil v)
    · intro v hv
      exact absurd hv.1 (List.not_mem_nil v)
  have hcount : countRemaining g [] < (universeList g).length + 1 := by
    unfold countRemaining
    exact Nat.lt_succ_of_le (List.length_filter_le _ _)
  obtain ⟨res, -, hinv, hks⟩ :=
    dfsForest_post g ((universeList g).length + 1) (keys g) [] hinv0
      (fun k hk => keys_subset_universe g k hk) hcount h
  have hukeys : u ∈ keys g := by
    obtain ⟨c, hedge, -⟩ := Relation.TransGen.head'_iff.mp hcyc
    obtain ⟨e, he, hs, -⟩ := hedge
    exact hs ▸ (hwf e he).1
  exact hinv.2.2 u ⟨hks u hukeys, List.not_mem_nil u⟩ hcyc

/-- Helper: the edge scan of `validate` passes exactly when every edge
endpoint is a known key. -/
theorem validateEdges_none_iff (g : GraphValidator.Graph) (l : List EdgeRec) :
    validateEdges g l = none ↔
      ∀ e ∈ l, e.source_node_key ∈ keys g ∧ e.target_node_key ∈ keys g := by
  induction l with
  | nil => simp [validateEdges]
  | cons e es ih =>
    rw [validateEdges]
    by_cases hs : e.source_node_key ∈ keys g
    · rw [if_neg (by simp [hs])]
      by_cases ht : e.target_node_key ∈ keys g
      · rw [if_neg (by simp [ht])]
        rw [ih]
        constructor
        · intro hall e1 he1
          rcases List.mem_cons.mp he1 with h1 | h1
          · exact h1 ▸ ⟨hs, ht⟩
          · exact hall e1 h1
        · intro hall e1 he1
          exact hall e1 (List.mem_cons_of_mem e he1)
      · rw [if_pos ht]
        constructor
        · intro hc
          exact Option.noConfusion hc
        · intro hall
          exact absurd (hall e (List.mem_cons_self e es)).2 ht
    · rw [if_pos hs]
      constructor
      · intro hc
        exact Option.noConfusion hc
      · intro hall
        exact absurd (hall e (List.mem_cons_self e es)).1 hs

/-- C7 counterexample.  Duplicate edges are not rejected: `validate`
accepts the graph `a → b, a → b`. -/
theorem c7_counterexample :
    (validate gDupEdge).1 = true ∧ ¬ gDupEdge.edges.Nodup :=
⟨rfl, by decide⟩

/-- C7 (amended).  `validate` returns failure exactly when the node set
is empty, some edge references an unknown node key, or the digraph has
a cycle; self-loops are rejected (they are cycles), but — contrary to
the original claim — duplicate edges as such are not rejected (see the
counterexample): they fail validation only when one of the three
conditions holds. -/
theorem c7_amended (g : GraphValidator.Graph) :
    ((validate g).1 = false ↔
      (keys g = [] ∨
        (∃ e ∈ g.edges, e.source_node_key ∉ keys g ∨ e.target_node_key ∉ keys g) ∨
        HasCycle g)) ∧
    (∀ e ∈ g.edges, e.source_node_key = e.target_node_key → (validate g).1 = false) := by
  have hiff : (validate g).1 = false ↔
      (keys g = [] ∨
        (∃ e ∈ g.edges, e.source_node_key ∉ keys g ∨ e.target_node_key ∉ keys g) ∨
        HasCycle g) := by
    unfold validate
    by_cases hkeys : keys g = []
    · simp only [if_pos hkeys]
      constructor
      · intro _
        exact Or.inl hkeys
      · intro _
        trivial
    · rw [if_neg hkeys]
      by_cases hcyc : has_cycle g = true
      · rw [if_pos hcyc]
        exact ⟨fun _ => Or.inr (Or.inr (has_cycle_sound g hcyc)), fun _ => rfl⟩
      · rw [if_neg hcyc]
        cases hve : validateEdges g g.edges with
        | some msg =>
          constructor
          · intro _
            refine Or.inr (Or.inl ?_)
            by_contra hall
            push_neg at hall
            have : validateEdges g g.edges = none := by
              rw [validateEdges_none_iff]
              intro e he
              have h1 := hall e he
              exact ⟨h1.1, h1.2⟩
            rw [this] at hve
            exact Option.noConfusion hve
          · intro _
            rfl
        | none =>
          have hall := (validateEdges_none_iff g g.edges).mp hve
          have hwf : WellFormed g := fun e he => hall e he
          constructor
          · intro hfalse
            exact absurd hfalse (by simp)
          · intro hbad
            exfalso
            rcases hbad with h | h | h
            · exact hkeys h
            · obtain ⟨e, he, hb⟩ := h
              rcases hb with hb | hb
              · exact hb (hall e he).1
              · exact hb (hall e he).2
            · exact has_cycle_complete g hwf (Bool.eq_false_iff.mpr hcyc) h
  refine ⟨hiff, ?_⟩
  intro e he hself
  refine hiff.mpr (Or.inr (Or.inr ⟨e.source_node_key, Relation.TransGen.single ?_⟩))
  exact ⟨e, he, rfl, hself.symm⟩

/-- C7 witness: the one-node self-loop graph is rejected by
`validate`. -/
theorem c7_amended_witness : (validate gSelfLoop).1 = false :=
(c7_amended gSelfLoop).2
  { source_node_key := "s", target_node_key := "s", condition := .always }
  (by decide) rfl

/-- C10.  When the analysis yields an empty level list (in particular
for a graph with zero nodes), `execute_graph` leaves the execution
RUNNING, dispatches no level, and never starts the `execute_level`
chain, so `finalize_execution` is never invoked and no terminal status
is ever written. -/
theorem c10_empty_levels (g : GraphValidator.Graph)
    (h : get_execution_levels g = .ok []) :
    (execute_graph g).status = .running ∧
    (execute_graph g).dispatched_level = none ∧
    (execute_graph g).finalize_invoked = false ∧
    (execute_graph g).error_message = none := by
  unfold execute_graph
  rw [h]
  exact ⟨rfl, rfl, rfl, rfl⟩

/-- Helper: bundle lookup at a matching head. -/
theorem lookupInput_cons_pos (x : String × PyObj) (l : List (String × PyObj)) (k : String)
    (h : (x.1 == k) = true) : lookupInput (x :: l) k = some x.2 := by
  simp only [lookupInput, List.find?_cons, h, cond_true]
  rfl

/-- Helper: bundle lookup skips a non-matching head. -/
theorem lookupInput_cons_neg (x : String × PyObj) (l : List (String × PyObj)) (k : String)
    (h : (x.1 == k) = false) : lookupInput (x :: l) k = lookupInput l k := by
  simp only [lookupInput, List.find?_cons, h, cond_false]

/-- Helper: looking up in an overwritten association list. -/
theorem lookupInput_map_set (d : List (String × PyObj)) (k : String) (v : PyObj) (k1 : String) :
    lookupInput (d.map (fun p => if p.1 == k then (k, v) else p)) k1 =
      if k1 = k then (lookupInput d k).map (fun _ => v) else lookupInput d k1 := by
  induction d with
  | nil => by_cases h : k1 = k <;> simp [lookupInput, h]
  | cons a rest ih =>
    simp only [List.map_cons]
    rcases Bool.eq_false_or_eq_true (a.1 == k) with hae | hae
    · have hak : a.1 = k := by simpa using hae
      have hhead : (if (a.1 == k) = true then (k, v) else a) = (k, v) := by simp [hae]
      rw [hhead]
      rcases Bool.eq_false_or_eq_true (k == k1) with h1e | h1e
      · have h1 : k1 = k := by
          have h2 : k = k1 := by simpa using h1e
          exact h2.symm
        rw [lookupInput_cons_pos _ _ _ h1e, if_pos h1, lookupInput_cons_pos _ _ _ hae]
        rfl
      · have h1 : ¬ k1 = k := by
          intro h
          rw [h] at h1e
          simp at h1e
        have hae1 : (a.1 == k1) = false := by rw [hak]; exact h1e
        rw [lookupInput_cons_neg _ _ _ h1e, if_neg h1, lookupInput_cons_neg _ _ _ hae1, ih,
          if_neg h1]
    · have hhead : (if (a.1 == k) = true then (k, v) else a) = a := by simp [hae]
      rw [hhead]
      rcases Bool.eq_false_or_eq_true (a.1 == k1) with hae1 | hae1
      · have ha1 : a.1 = k1 := by simpa using hae1
        have hak : ¬ a.1 = k := by simpa using hae
        have h1 : ¬ k1 = k := fun h => hak (ha1.trans h)
        rw [lookupInput_cons_pos _ _ _ hae1, if_neg h1, lookupInput_cons_pos _ _ _ hae1]
      · rw [lookupInput_cons_neg _ _ _ hae1, ih]
        by_cases h1 : k1 = k
        · rw [if_pos h1, if_pos h1, lookupInput_cons_neg _ _ _ hae]
        · rw [if_neg h1, if_neg h1, lookupInput_cons_neg _ _ _ hae1]

/-- Helper: lookup passes over a prefix without the key. -/
theorem lookupInput_append_none (d1 d2 : List (String × PyObj)) (k : String)
    (h : lookupInput d1 k = none) :
    lookupInput (d1 ++ d2) k = lookupInput d2 k := by
  unfold lookupInput at *
  rw [List.find?_append]
  cases hfd : d1.find? (fun p => p.1 == k) with
  | none => rfl
  | some p => rw [hfd] at h; simp at h

/-- Helper: lookup resolves in a prefix holding the key. -/
theorem lookupInput_append_some (d1 d2 : List (String × PyObj)) (k : String) (v : PyObj)
    (h : lookupInput d1 k = some v) :
    lookupInput (d1 ++ d2) k = some v := by
  unfold lookupInput at *
  rw [List.find?_append]
  cases hfd : d1.find? (fun p => p.1 == k) with
  | none => rw [hfd] at h; simp at h
  | some p =>
    rw [hfd] at h
    simpa using h

/-- Helper: `dictSet` binds `k` to `v` and leaves other keys alone. -/
theorem lookupInput_dictSet (d : List (String × PyObj)) (k : String) (v : PyObj)
    (k1 : String) :
    lookupInput (dictSet d k v) k1 = if k1 = k then some v else lookupInput d k1 := by
  unfold dictSet
  by_cases hany : d.any (fun p => p.1 == k)
  · rw [if_pos hany, lookupInput_map_set]
    by_cases h1k : k1 = k
    · obtain ⟨p, hp, hpk⟩ := List.any_eq_true.mp hany
      have hsome : (d.find? (fun p => p.1 == k)).isSome := List.find?_isSome.mpr ⟨p, hp, hpk⟩
      obtain ⟨q, hq⟩ := Option.isSome_iff_exists.mp hsome
      have hlk : lookupInput d k = some q.2 := by
        unfold lookupInput
        rw [hq]
        rfl
      rw [if_pos h1k, if_pos h1k, hlk]
      rfl
    · rw [if_neg h1k, if_neg h1k]
  · rw [if_neg hany]
    have hnone : lookupInput d k = none := by
      unfold lookupInput
      rw [List.find?_eq_none.mpr]
      · rfl
      · intro p hp
        intro hc
        exact hany (List.any_eq_true.mpr ⟨p, hp, hc⟩)
    by_cases h1k : k1 = k
    · subst h1k
      rw [if_pos rfl, lookupInput_append_none _ _ _ hnone]
      exact lookupInput_cons_pos _ _ _ (by simp)
    · rw [if_neg h1k]
      cases hd : lookupInput d k1 with
      | none =>
        rw [lookupInput_append_none _ _ _ hd]
        rw [lookupInput_cons_neg _ _ _ (by simp; exact fun h => h1k h.symm)]
        rfl
      | some p => exact lookupInput_append_some _ _ _ _ hd

/-- Helper: the bundle built by the dependency loop, characterised
entry by entry.  `H` is the engine invariant that a SUCCESS row carries
`output_data = {'result': out}` (which is what `execute_node` writes on
success). -/
theorem check_go_inputs (db : String → Option NodeExecution) (nk : String)
    (edges : List EdgeRec) :
    ∀ (deps : List String),
      (∀ d ∈ deps, ∀ ne, db d = some ne → ne.status = .success →
        ∃ out, ne.output_data = some (.pyDict [("result", out)])) →
      ∀ acc, (check_dependencies_go db nk edges deps acc).1 = true →
        ∀ k,
          ((∀ nek, db k = some nek → ¬(k ∈ deps ∧ nek.status = .success)) →
            lookupInput (check_dependencies_go db nk edges deps acc).2 k = lookupInput acc k) ∧
          (∀ nek, db k = some nek → k ∈ deps → nek.status = .success →
            lookupInput (check_dependencies_go db nk edges deps acc).2 k =
              some (pyDictGet nek.output_data "result")) := by
  intro deps
  induction deps with
  | nil =>
    intro _ acc _ k
    refine ⟨fun _ => rfl, fun nek _ hk => absurd hk (List.not_mem_nil k)⟩
  | cons dep rest ih =>
    intro H acc hfst k
    have Hrest : ∀ d ∈ rest, ∀ ne, db d = some ne → ne.status = .success →
        ∃ out, ne.output_data = some (.pyDict [("result", out)]) :=
      fun d hd => H d (List.mem_cons_of_mem dep hd)
    simp only [check_dependencies_go] at hfst
    cases hdb : db dep with
    | none => rw [hdb] at hfst; simp at hfst
    | some de =>
      rw [hdb] at hfst
      dsimp only at hfst
      set acc1 := (if de.status = ExecutionStatus.success ∧ truthy de.output_data = true then
        dictSet acc dep (pyDictGet de.output_data "result") else acc) with hacc1
      split_ifs at hfst with h1 h2 h3
      have hstep : check_dependencies_go db nk edges (dep :: rest) acc =
          check_dependencies_go db nk edges rest acc1 := by
        simp only [check_dependencies_go]
        rw [hdb]
        dsimp only
        rw [if_neg h1, if_neg h2, if_neg h3, ← hacc1]
      rw [hstep]
      have key := ih Hrest acc1 hfst
      constructor
      · intro hnot
        have hk1 : lookupInput acc1 k = lookupInput acc k := by
          rw [hacc1]
          split_ifs with hset
          · rw [lookupInput_dictSet]
            rw [if_neg]
            intro hkdep
            subst hkdep
            rw [hdb] at hnot
            exact hnot de rfl ⟨List.mem_cons_self k rest, hset.1⟩
          · rfl
        have hrest1 : ∀ nek, db k = some nek → ¬(k ∈ rest ∧ nek.status = .success) := by
          intro nek hnek hc
          exact hnot nek hnek ⟨List.mem_cons_of_mem dep hc.1, hc.2⟩
        rw [(key k).1 hrest1, hk1]
      · intro nek hnek hmem hs
        rcases List.mem_cons.mp hmem with hkdep | hkrest
        · subst hkdep
          rw [hdb] at hnek
          cases hnek
          by_cases hkrest : k ∈ rest
          · exact (key k).2 de hdb hkrest hs
          · have hnot1 : ∀ ne1, db k = some ne1 → ¬(k ∈ rest ∧ ne1.status = .success) :=
              fun ne1 _ hc => hkrest hc.1
            rw [(key k).1 hnot1, hacc1]
            have htr : truthy de.output_data = true := by
              obtain ⟨out, hout⟩ := H k (List.mem_cons_self k rest) de hdb hs
              rw [hout]
              rfl
            rw [if_pos ⟨hs, htr⟩, lookupInput_dictSet, if_pos rfl]
        · exact (key k).2 nek hnek hkrest hs

/-- C6.  For a node admitted to run, the input bundle maps exactly the
predecessor keys whose node execution ended SUCCESS to that
predecessor's stored output value (`output_data['result']`); FAILED
predecessors (and keys outside the dependency list) contribute no
entry. -/
theorem c6_input_bundle (db : String → Option NodeExecution) (nk : String)
    (deps : List String) (edges : List EdgeRec)
    (H : ∀ d ∈ deps, ∀ ne, db d = some ne → ne.status = .success →
      ∃ out, ne.output_data = some (.pyDict [("result", out)]))
    (hgate : (check_dependencies db nk deps edges).1 = true) :
    ∀ k,
      (∀ nek out, db k = some nek → k ∈ deps → nek.status = .success →
        nek.output_data = some (.pyDict [("result", out)]) →
        lookupInput (check_dependencies db nk deps edges).2 k = some out) ∧
      ((∀ nek, db k = some nek → ¬(k ∈ deps ∧ nek.status = .success)) →
        lookupInput (check_dependencies db nk deps edges).2 k = none) := by
  intro k
  have key := check_go_inputs db nk edges deps H [] hgate k
  constructor
  · intro nek out hnek hmem hs hout
    rw [check_dependencies, key.2 nek hnek hmem hs, hout]
    rfl
  · intro hnot
    rw [check_dependencies, key.1 hnot]
    rfl

/-- C6 witness: in the bundle graph, the SUCCESS predecessor `p` (output
`5`) is mapped to `5` and the FAILED predecessor `q` contributes no
entry. -/
theorem c6_input_bundle_witness :
    lookupInput (check_dependencies dbBundle "k" (get_dependencies gBundle "k")
      gBundle.edges).2 "p" = some (.pyInt 5) ∧
    lookupInput (check_dependencies dbBundle "k" (get_dependencies gBundle "k")
      gBundle.edges).2 "q" = none := by
  have H : ∀ d ∈ get_dependencies gBundle "k", ∀ ne, dbBundle d = some ne →
      ne.status = .success → ∃ out, ne.output_data = some (.pyDict [("result", out)]) := by
    intro d hd ne hne hs
    have hd2 : d = "p" ∨ d = "q" := by
      have : get_dependencies gBundle "k" = ["p", "q"] := rfl
      rw [this] at hd
      simpa using hd
    rcases hd2 with h | h <;> subst h
    · refine ⟨.pyInt 5, ?_⟩
      have : ne = { status := .success, output_data := some (.pyDict [("result", .pyInt 5)]) } := by
        have hval : dbBundle "p" =
            some { status := .success, output_data := some (.pyDict [("result", .pyInt 5)]) } := rfl
        rw [hval] at hne
        exact (Option.some_inj.mp hne).symm
      rw [this]
    · exfalso
      have hval : dbBundle "q" = some { status := .failed, error_message := some "boom" } := rfl
      rw [hval] at hne
      rw [← Option.some_inj.mp hne] at hs
      exact ExecutionStatus.noConfusion hs
  have key := c6_input_bundle dbBundle "k" (get_dependencies gBundle "k") gBundle.edges H rfl
  constructor
  · exact (key "p").1 { status := .success, output_data := some (.pyDict [("result", .pyInt 5)]) }
      (.pyInt 5) rfl (by decide) rfl rfl
  · refine (key "q").2 ?_
    intro nek hnek ⟨hmem, hs⟩
    have hval : dbBundle "q" = some { status := .failed, error_message := some "boom" } := rfl
    rw [hval] at hnek
    rw [← Option.some_inj.mp hnek] at hs
    exact ExecutionStatus.noConfusion hs

/-- C10 witness: the zero-node graph. -/
theorem c10_empty_levels_witness :
    (execute_graph { nodes := [], edges := [] }).status = .running ∧
    (execute_graph { nodes := [], edges := [] }).dispatched_level = none ∧
    (execute_graph { nodes := [], edges := [] }).finalize_invoked = false ∧
    (execute_graph { nodes := [], edges := [] }).error_message = none :=
c10_empty_levels { nodes := [], edges := [] } rfl

/-- Helper: specification of the deduplication accumulator loop. -/
theorem dedupKeysGo_spec :
    ∀ (l seen : List String),
      (∀ x, x ∈ dedupKeysGo l seen ↔ (x ∈ l ∧ x ∉ seen)) ∧ (dedupKeysGo l seen).Nodup := by
  intro l
  induction l with
  | nil =>
    intro seen
    exact ⟨fun x => by simp [dedupKeysGo], List.nodup_nil⟩
  | cons k ks ih =>
    intro seen
    rw [dedupKeysGo]
    by_cases hk : k ∈ seen
    · rw [if_pos hk]
      refine ⟨fun x => ?_, (ih seen).2⟩
      rw [(ih seen).1 x]
      constructor
      · rintro ⟨hx, hns⟩
        exact ⟨List.mem_cons_of_mem k hx, hns⟩
      · rintro ⟨hx, hns⟩
        rcases List.mem_cons.mp hx with hxk | hxk
        · exact absurd (hxk ▸ hk) hns
        · exact ⟨hxk, hns⟩
    · rw [if_neg hk]
      have hmem := (ih (k :: seen)).1
      refine ⟨fun x => ?_, ?_⟩
      · constructor
        · intro hx
          rcases List.mem_cons.mp hx with hxk | hxk
          · exact ⟨hxk ▸ List.mem_cons_self k ks, hxk ▸ hk⟩
          · obtain ⟨h1, h2⟩ := (hmem x).mp hxk
            exact ⟨List.mem_cons_of_mem k h1, fun hs => h2 (List.mem_cons_of_mem k hs)⟩
        · rintro ⟨hx, hns⟩
          rcases List.mem_cons.mp hx with hxk | hxk
          · exact hxk ▸ List.mem_cons_self k _
          · by_cases hxk2 : x = k
            · exact hxk2 ▸ List.mem_cons_self k _
            · exact List.mem_cons_of_mem k
                ((hmem x).mpr ⟨hxk, fun hs => (List.mem_cons.mp hs).elim hxk2 hns⟩)
      · refine List.nodup_cons.mpr ⟨?_, (ih (k :: seen)).2⟩
        intro hkmem
        exact ((hmem k).mp hkmem).2 (List.mem_cons_self k seen)

/-- Helper: the key list of a validator is duplicate-free. -/
theorem keys_nodup (g : GraphValidator.Graph) : (keys g).Nodup :=
(dedupKeysGo_spec g.nodes []).2

/-- Helper: a key is a supplied node key. -/
theorem mem_keys (g : GraphValidator.Graph) (x : String) :
    x ∈ keys g ↔ x ∈ g.nodes := by
  unfold keys dedupKeys
  rw [(dedupKeysGo_spec g.nodes []).1 x]
  simp

/-- Helper: a filter keeps the whole list iff every element passes. -/
theorem filter_length_eq_iff {α : Type} (l : List α) (p : α → Bool) :
    (l.filter p).length = l.length ↔ ∀ a ∈ l, p a = true := by
  induction l with
  | nil => simp
  | cons a t ih =>
    by_cases hpa : p a = true
    · rw [List.filter_cons, if_pos hpa]
      constructor
      · intro h x hx
        have h2 : (t.filter p).length = t.length := by
          simp only [List.length_cons] at h
          omega
        rcases List.mem_cons.mp hx with h1 | h1
        · exact h1 ▸ hpa
        · exact (ih.mp h2) x h1
      · intro h
        have h2 := ih.mpr (fun x hx => h x (List.mem_cons_of_mem a hx))
        simp only [List.length_cons]
        omega
    · rw [List.filter_cons, if_neg hpa]
      constructor
      · intro h
        exfalso
        have hle := List.length_filter_le p t
        rw [List.length_cons] at h
        omega
      · intro h
        exact absurd (h a (List.mem_cons_self a t)) hpa

/-- Helper: counting a disjunction of exclusive predicates splits. -/
theorem countP_or_disjoint {α : Type} (l : List α) (p q : α → Bool)
    (h : ∀ a ∈ l, ¬(p a = true ∧ q a = true)) :
    l.countP (fun a => p a || q a) = l.countP p + l.countP q := by
  induction l with
  | nil => simp
  | cons a t ih =>
    have iht := ih (fun x hx => h x (List.mem_cons_of_mem a hx))
    by_cases hpa : p a = true
    · have hqa : q a = false :=
        Bool.eq_false_iff.mpr (fun hq => h a (List.mem_cons_self a t) ⟨hpa, hq⟩)
      rw [List.countP_cons, List.countP_cons, List.countP_cons]
      simp [hpa, hqa]
      omega
    · have hpa2 : p a = false := Bool.eq_false_iff.mpr hpa
      by_cases hqa : q a = true
      · rw [List.countP_cons, List.countP_cons, List.countP_cons]
        simp [hpa2, hqa]
        omega
      · have hqa2 : q a = false := Bool.eq_false_iff.mpr hqa
        rw [List.countP_cons, List.countP_cons, List.countP_cons]
        simp [hpa2, hqa2]
        omega

/-- Helper: counted predecessors never exceed the in-degree. -/
theorem preds_in_le (g : GraphValidator.Graph) (S : List String) (v : String) :
    preds_in g S v ≤ in_degree g v :=
List.length_filter_le _ _

/-- Helper: all counted in-edges come from `S` iff the `S`-count equals
the in-degree. -/
theorem preds_in_eq_iff (g : GraphValidator.Graph) (S : List String) (v : String) :
    preds_in g S v = in_degree g v ↔
      ∀ e ∈ edges_into g v, e.source_node_key ∈ S := by
  unfold preds_in in_degree
  rw [filter_length_eq_iff]
  constructor
  · intro h e he
    simpa using h e he
  · intro h e he
    simpa using h e he

/-- Helper: predecessor counts add over disjoint source sets. -/
theorem preds_in_append (g : GraphValidator.Graph) (E C : List String) (v : String)
    (hdisj : ∀ x, ¬(x ∈ E ∧ x ∈ C)) :
    preds_in g (E ++ C) v = preds_in g E v + preds_in g C v := by
  unfold preds_in
  rw [← List.countP_eq_length_filter, ← List.countP_eq_length_filter,
    ← List.countP_eq_length_filter]
  have hcongr : (edges_into g v).countP (fun e => decide (e.source_node_key ∈ E ++ C)) =
      (edges_into g v).countP
        (fun e => decide (e.source_node_key ∈ E) || decide (e.source_node_key ∈ C)) := by
    apply List.countP_congr
    intro e _
    by_cases hE : e.source_node_key ∈ E
    · simp [hE]
    · by_cases hC : e.source_node_key ∈ C <;> simp [hE, hC]
  rw [hcongr]
  refine countP_or_disjoint _ _ _ ?_
  intro e _
  rintro ⟨h1, h2⟩
  simp only [decide_eq_true_eq] at h1 h2
  exact hdisj e.source_node_key ⟨h1, h2⟩

/-- Helper: occurrences of `v` among the adjacency targets of the nodes
of a duplicate-free known-key list `S` count the edges from `S` into
`v`. -/
theorem count_flatMap_adjTargets (g : GraphValidator.Graph) :
    ∀ (S : List String), S.Nodup → (∀ x ∈ S, x ∈ keys g) → ∀ v,
      ((S.flatMap (adjTargets g)).count v) = preds_in g S v := by
  intro S
  induction S with
  | nil =>
    intro _ _ v
    simp [preds_in]
  | cons k S ih =>
    intro hnd hsub v
    have hknd := List.nodup_cons.mp hnd
    rw [List.flatMap_cons, List.count_append,
      ih hknd.2 (fun x hx => hsub x (List.mem_cons_of_mem k hx)) v]
    have hk : k ∈ keys g := hsub k (List.mem_cons_self k S)
    have hsingle : preds_in g [k] v = (adjTargets g k).count v := by
      unfold preds_in adjTargets edges_into
      rw [List.count_eq_countP, List.countP_map, ← List.countP_eq_length_filter,
        List.countP_filter, List.countP_filter]
      apply List.countP_congr
      intro e _
      by_cases h2 : e.source_node_key = k
      · by_cases h1 : e.target_node_key = v
        · have h3 : e.source_node_key ∈ keys g := h2 ▸ hk
          simp [h1, h2, h3, hk, Function.comp]
        · simp [h1, h2, Function.comp]
      · by_cases h1 : e.target_node_key = v <;> simp [h1, h2, Function.comp]
    have hsplit : preds_in g (k :: S) v = preds_in g [k] v + preds_in g S v := by
      have : (k :: S) = [k] ++ S := rfl
      rw [this]
      refine preds_in_append g [k] S v ?_
      intro x
      rintro ⟨hx1, hx2⟩
      rcases List.mem_cons.mp hx1 with h | h
      · exact hknd.1 (h ▸ hx2)
      · exact absurd h (List.not_mem_nil x)
    rw [hsplit, hsingle]

/-- Helper: membership in the counted in-edges. -/
theorem mem_edges_into (g : GraphValidator.Graph) (v : String) (e : EdgeRec) :
    e ∈ edges_into g v ↔
      e ∈ g.edges ∧ e.target_node_key = v ∧ e.source_node_key ∈ keys g := by
  unfold edges_into
  simp only [List.mem_filter, Bool.and_eq_true, beq_iff_eq, decide_eq_true_eq]

/-- Helper: the inner in-degree fold adds the occurrence counts of the
scanned targets. -/
theorem inner_fold_counts (g : GraphValidator.Graph) :
    ∀ (l : List String) (c0 c1 : String → Int),
      l.foldlM
        (fun c2 t =>
          if t ∈ keys g then Except.ok (fun v => if v = t then c2 t + 1 else c2 v)
          else Except.error t) c0 = .ok c1 →
      ∀ v, c1 v = c0 v + (l.count v : Int) := by
  intro l
  induction l with
  | nil =>
    intro c0 c1 h v
    have hc : c0 = c1 := Except.ok.inj h
    simp [← hc]
  | cons t ts ih =>
    intro c0 c1 h v
    rw [List.foldlM_cons] at h
    by_cases ht : t ∈ keys g
    · rw [if_pos ht] at h
      have ihv := ih _ c1 h v
      by_cases hvt : v = t
      · subst hvt
        rw [List.count_cons_self]
        simp only [if_pos rfl] at ihv
        push_cast
        push_cast at ihv
        omega
      · rw [List.count_cons_of_ne hvt]
        simpa [hvt] using ihv
    · rw [if_neg ht] at h
      exact Except.noConfusion h

/-- Helper: the outer in-degree fold adds the occurrence counts over
all scanned adjacency lists. -/
theorem outer_fold_counts (g : GraphValidator.Graph) :
    ∀ (ks : List String) (c0 c1 : String → Int),
      ks.foldlM
        (fun c k =>
          (adjTargets g k).foldlM
            (fun c2 t =>
              if t ∈ keys g then Except.ok (fun v => if v = t then c2 t + 1 else c2 v)
              else Except.error t) c) c0 = .ok c1 →
      ∀ v, c1 v = c0 v + ((ks.flatMap (adjTargets g)).count v : Int) := by
  intro ks
  induction ks with
  | nil =>
    intro c0 c1 h v
    have hc : c0 = c1 := Except.ok.inj h
    simp [← hc]
  | cons k kt ih =>
    intro c0 c1 h v
    rw [List.foldlM_cons] at h
    cases hinner : (adjTargets g k).foldlM
        (fun c2 t =>
          if t ∈ keys g then Except.ok (fun v => if v = t then c2 t + 1 else c2 v)
          else Except.error t) c0 with
    | error e => rw [hinner] at h; exact Except.noConfusion h
    | ok cmid =>
      rw [hinner] at h
      have h1 := inner_fold_counts g _ c0 cmid hinner v
      have h2 := ih cmid c1 h v
      rw [List.flatMap_cons, List.count_append]
      push_cast
      push_cast at h1 h2
      omega

/-- Helper: a successful in-degree scan yields exactly the counted
in-degrees on the keys. -/
theorem in_degree_init_ok (g : GraphValidator.Graph) (c : String → Int)
    (h : in_degree_init g = .ok c) :
    ∀ v, c v = (in_degree g v : Int) := by
  intro v
  unfold in_degree_init at h
  have h1 := outer_fold_counts g (keys g) _ c h v
  rw [count_flatMap_adjTargets g (keys g) (keys_nodup g) (fun x hx => hx) v] at h1
  have h2 : preds_in g (keys g) v = in_degree g v := by
    rw [preds_in_eq_iff]
    intro e he
    exact ((mem_edges_into g v e).mp he).2.2
  rw [h2] at h1
  simpa using h1

/-- Helper: effect of processing one level's decrements, fold form: the
counts drop by the occurrence count, and a node joins the next level
exactly when its counter passes through zero. -/
theorem levelStep_fold :
    ∀ (ts : List String) (c : String → Int) (nx : List String) (v : String),
      ((ts.foldl levelStep (c, nx)).1 v = c v - (ts.count v : Int)) ∧
      ((ts.foldl levelStep (c, nx)).2.count v =
        nx.count v + (if 1 ≤ c v ∧ c v ≤ (ts.count v : Int) then 1 else 0)) := by
  intro ts
  induction ts with
  | nil =>
    intro c nx v
    refine ⟨by simp, ?_⟩
    rw [if_neg (by simp; omega)]
    simp
  | cons t ts ih =>
    intro c nx v
    rw [List.foldl_cons]
    have hstep : levelStep (c, nx) t =
        ((fun v => if v = t then c t - 1 else c v),
          if c t - 1 = 0 then nx ++ [t] else nx) := rfl
    rw [hstep]
    obtain ⟨ih1, ih2⟩ := ih (fun v => if v = t then c t - 1 else c v)
      (if c t - 1 = 0 then nx ++ [t] else nx) v
    by_cases hvt : v = t
    · subst hvt
      constructor
      · rw [ih1, List.count_cons_self]
        simp only [if_pos rfl]
        push_cast
        omega
      · rw [ih2, List.count_cons_self]
        simp only [if_pos rfl]
        have hcount : (if c v - 1 = 0 then nx ++ [v] else nx).count v =
            nx.count v + (if c v - 1 = 0 then 1 else 0) := by
          by_cases hc1 : c v - 1 = 0
          · rw [if_pos hc1, if_pos hc1, List.count_append]
            simp
          · rw [if_neg hc1, if_neg hc1]
            simp
        rw [hcount]
        push_cast
        split_ifs <;> omega
    · constructor
      · rw [ih1, List.count_cons_of_ne hvt]
        simp [hvt]
      · rw [ih2, List.count_cons_of_ne hvt]
        have hcount : (if c t - 1 = 0 then nx ++ [t] else nx).count v = nx.count v := by
          by_cases hc1 : c t - 1 = 0
          · rw [if_pos hc1, List.count_append]
            simp [List.count_singleton', Ne.symm hvt]
          · rw [if_neg hc1]
        rw [hcount]
        simp [hvt]

/-- Helper: a duplicate-free list contained in another duplicate-free
list is no longer. -/
theorem nodup_subset_length_le (l1 l2 : List String) (h1 : l1.Nodup) (h2 : l2.Nodup)
    (hsub : ∀ x ∈ l1, x ∈ l2) : l1.length ≤ l2.length := by
  rw [← List.toFinset_card_of_nodup h1, ← List.toFinset_card_of_nodup h2]
  refine Finset.card_le_card ?_
  intro x hx
  rw [List.mem_toFinset] at hx ⊢
  exact hsub x hx

/-- Helper: central invariant of the level loop.  Given correct
counters for the processed prefix `E`, and `cur` exactly the
unprocessed nodes whose counted in-edges all come from `E`, the
produced levels satisfy the peeling characterisation and are
duplicate-free and disjoint from `E`. -/
theorem kahnLoop_spec (g : GraphValidator.Graph)
    (hwf : ∀ e ∈ g.edges, e.source_node_key ∈ keys g → e.target_node_key ∈ keys g) :
    ∀ (fuel : Nat) (c : String → Int) (cur E : List String),
      (E ++ cur).Nodup →
      (∀ x ∈ E ++ cur, x ∈ keys g) →
      (∀ v ∈ keys g, c v = (in_degree g v : Int) - (preds_in g E v : Int)) →
      (∀ v ∈ E, ∀ e ∈ edges_into g v, e.source_node_key ∈ E) →
      (∀ v, v ∈ cur ↔
        (v ∈ keys g ∧ v ∉ E ∧ ∀ e ∈ edges_into g v, e.source_node_key ∈ E)) →
      ((keys g).length + 1 ≤ fuel + E.length) →
      (∀ i v, v ∈ (kahnLoop g fuel c cur).getD i [] ↔
        (v ∈ keys g ∧ v ∉ E ++ UnionTake (kahnLoop g fuel c cur) i ∧
          ∀ e ∈ edges_into g v,
            e.source_node_key ∈ E ++ UnionTake (kahnLoop g fuel c cur) i)) ∧
      (E ++ (kahnLoop g fuel c cur).flatten).Nodup := by
  intro fuel
  induction fuel with
  | zero =>
    intro c cur E hnd hsubk hc hEcl hcur hfuel
    exfalso
    have hE : E.Nodup := (List.nodup_append.mp hnd).1
    have hlen : E.length ≤ (keys g).length :=
      nodup_subset_length_le E (keys g) hE (keys_nodup g)
        (fun x hx => hsubk x (List.mem_append_left cur hx))
    omega
  | succ fuel ih =>
    intro c cur E hnd hsubk hc hEcl hcur hfuel
    rw [kahnLoop]
    by_cases hcure : cur.isEmpty
    · rw [if_pos hcure]
      have hcurnil : cur = [] := List.isEmpty_iff.mp hcure
      constructor
      · intro i v
        constructor
        · intro h
          have h2 : ([] : List (List String)).getD i [] = [] := by
            cases i <;> rfl
          rw [h2] at h
          exact absurd h (List.not_mem_nil v)
        · rintro ⟨hk, hnE, hpreds⟩
          exfalso
          have hU : UnionTake ([] : List (List String)) i = [] := by
            unfold UnionTake
            rw [List.take_nil]
            rfl
          rw [hU, List.append_nil] at hnE hpreds
          have hv : v ∈ cur := (hcur v).mpr ⟨hk, hnE, hpreds⟩
          rw [hcurnil] at hv
          exact List.not_mem_nil v hv
      · rw [hcurnil, List.append_nil] at hnd
        show (E ++ ([] : List (List String)).flatten).Nodup
        simpa using hnd
    · rw [if_neg hcure]
      have hcurnil : cur ≠ [] := fun h => hcure (by rw [h]; rfl)
      obtain ⟨hEnd, hcurnd, hEdisj⟩ := List.nodup_append.mp hnd
      have hF1 : ∀ v, (processLevel g c cur).1 v
          = c v - ((cur.flatMap (adjTargets g)).count v : Int) :=
        fun v => (levelStep_fold (cur.flatMap (adjTargets g)) c [] v).1
      have hF2 : ∀ v, (processLevel g c cur).2.count v =
          (if 1 ≤ c v ∧ c v ≤ ((cur.flatMap (adjTargets g)).count v : Int)
            then 1 else 0) := by
        intro v
        have h := (levelStep_fold (cur.flatMap (adjTargets g)) c [] v).2
        simpa using h
      have hF3 : ∀ v, (cur.flatMap (adjTargets g)).count v = preds_in g cur v :=
        count_flatMap_adjTargets g cur hcurnd
          (fun x hx => hsubk x (List.mem_append_right E hx))
      have hFts : ∀ v ∈ cur.flatMap (adjTargets g), v ∈ keys g := by
        intro v hv
        obtain ⟨k, hk, hvadj⟩ := List.mem_flatMap.mp hv
        obtain ⟨e, he, hsrc, htgt⟩ := (mem_adjTargets g k v).mp hvadj
        refine htgt ▸ hwf e he ?_
        exact hsrc ▸ hsubk k (List.mem_append_right E hk)
      have hF5 : ∀ v ∈ E, c v = 0 := by
        intro v hv
        have hvk : v ∈ keys g := hsubk v (List.mem_append_left cur hv)
        have heq : preds_in g E v = in_degree g v :=
          (preds_in_eq_iff g E v).mpr (hEcl v hv)
        rw [hc v hvk, heq]
        omega
      have hF6 : ∀ v ∈ cur, c v = 0 := by
        intro v hv
        obtain ⟨hvk, hvE, hvpred⟩ := (hcur v).mp hv
        have heq : preds_in g E v = in_degree g v := (preds_in_eq_iff g E v).mpr hvpred
        rw [hc v hvk, heq]
        omega
      have hF7 : ∀ v ∈ keys g, v ∉ E → v ∉ cur → 1 ≤ c v := by
        intro v hvk hvE hvcur
        have hne : ¬ ∀ e ∈ edges_into g v, e.source_node_key ∈ E := by
          intro hall
          exact hvcur ((hcur v).mpr ⟨hvk, hvE, hall⟩)
        have hlt : preds_in g E v < in_degree g v := by
          have hle := preds_in_le g E v
          have hneq : preds_in g E v ≠ in_degree g v :=
            fun heq => hne ((preds_in_eq_iff g E v).mp heq)
          omega
        rw [hc v hvk]
        omega
      have hmemnext : ∀ v, v ∈ (processLevel g c cur).2 ↔
          (1 ≤ c v ∧ c v ≤ (preds_in g cur v : Int)) := by
        intro v
        rw [← List.count_pos_iff, hF2 v, hF3 v]
        split_ifs with hcond
        · simp [hcond]
        · simp [hcond]
      have hnextk : ∀ v ∈ (processLevel g c cur).2, v ∈ keys g := by
        intro v hv
        have h1 := (hmemnext v).mp hv
        have hcnt : 0 < (cur.flatMap (adjTargets g)).count v := by
          rw [hF3]
          omega
        exact hFts v (List.count_pos_iff.mp hcnt)
      have hnextnd : (processLevel g c cur).2.Nodup := by
        rw [List.nodup_iff_count_le_one]
        intro v
        rw [hF2 v]
        split_ifs <;> omega
      have hnextdisj : ∀ v ∈ (processLevel g c cur).2, v ∉ E ++ cur := by
        intro v hv hmem
        have h1 := (hmemnext v).mp hv
        rcases List.mem_append.mp hmem with h | h
        · rw [hF5 v h] at h1
          omega
        · rw [hF6 v h] at h1
          omega
      have hnd' : ((E ++ cur) ++ (processLevel g c cur).2).Nodup := by
        rw [List.nodup_append]
        exact ⟨hnd, hnextnd, fun a ha hb => hnextdisj a hb ha⟩
      have hsubk' : ∀ x ∈ (E ++ cur) ++ (processLevel g c cur).2, x ∈ keys g := by
        intro x hx
        rcases List.mem_append.mp hx with h | h
        · exact hsubk x h
        · exact hnextk x h
      have hdisjEcur : ∀ x, ¬(x ∈ E ∧ x ∈ cur) := fun x hx => hEdisj hx.1 hx.2
      have hc' : ∀ v ∈ keys g, (processLevel g c cur).1 v
          = (in_degree g v : Int) - (preds_in g (E ++ cur) v : Int) := by
        intro v hvk
        rw [hF1 v, hF3 v, hc v hvk, preds_in_append g E cur v hdisjEcur]
        push_cast
        ring
      have hEcl' : ∀ v ∈ E ++ cur, ∀ e ∈ edges_into g v,
          e.source_node_key ∈ E ++ cur := by
        intro v hv e he
        rcases List.mem_append.mp hv with h | h
        · exact List.mem_append_left cur (hEcl v h e he)
        · obtain ⟨-, -, hp⟩ := (hcur v).mp h
          exact List.mem_append_left cur (hp e he)
      have hcur' : ∀ v, v ∈ (processLevel g c cur).2 ↔
          (v ∈ keys g ∧ v ∉ E ++ cur ∧
            ∀ e ∈ edges_into g v, e.source_node_key ∈ E ++ cur) := by
        intro v
        constructor
        · intro hv
          have h1 := (hmemnext v).mp hv
          have hvk := hnextk v hv
          refine ⟨hvk, hnextdisj v hv, ?_⟩
          rw [← preds_in_eq_iff, preds_in_append g E cur v hdisjEcur]
          have hle2 := preds_in_le g (E ++ cur) v
          rw [preds_in_append g E cur v hdisjEcur] at hle2
          have hcv := hc v hvk
          omega
        · rintro ⟨hvk, hvEc, hp⟩
          have hvE : v ∉ E := fun h => hvEc (List.mem_append_left cur h)
          have hvcur : v ∉ cur := fun h => hvEc (List.mem_append_right E h)
          have heq : preds_in g (E ++ cur) v = in_degree g v :=
            (preds_in_eq_iff g (E ++ cur) v).mpr hp
          rw [preds_in_append g E cur v hdisjEcur] at heq
          have h7 := hF7 v hvk hvE hvcur
          rw [hmemnext v]
          have hcv := hc v hvk
          exact ⟨h7, by omega⟩
      have hfuel' : (keys g).length + 1 ≤ fuel + (E ++ cur).length := by
        rw [List.length_append]
        have h1 : 1 ≤ cur.length := by
          cases cur with
          | nil => exact absurd rfl hcurnil
          | cons a l => simp
        omega
      obtain ⟨ihchar, ihnd⟩ := ih (processLevel g c cur).1 (processLevel g c cur).2
        (E ++ cur) hnd' hsubk' hc' hEcl' hcur' hfuel'
      constructor
      · intro i v
        cases i with
        | zero =>
          have hU : UnionTake (cur :: kahnLoop g fuel (processLevel g c cur).1
              (processLevel g c cur).2) 0 = [] := rfl
          rw [hU, List.append_nil]
          exact hcur v
        | succ j =>
          have hU : UnionTake (cur :: kahnLoop g fuel (processLevel g c cur).1
              (processLevel g c cur).2) (j + 1) =
              cur ++ UnionTake (kahnLoop g fuel (processLevel g c cur).1
                (processLevel g c cur).2) j := by
            unfold UnionTake
            rw [List.take_succ_cons, List.flatten_cons]
          rw [hU, ← List.append_assoc]
          exact ihchar j v
      · rw [List.flatten_cons, ← List.append_assoc]
        exact ihnd

/-- Helper: membership in a flattened list, by level index. -/
theorem mem_flatten_exists_getD (Ls : List (List String)) (v : String) :
    v ∈ Ls.flatten ↔ ∃ i, v ∈ Ls.getD i [] := by
  constructor
  · intro h
    obtain ⟨l, hl, hvl⟩ := List.mem_flatten.mp h
    obtain ⟨i, hi, hil⟩ := List.mem_iff_getElem.mp hl
    refine ⟨i, ?_⟩
    rw [List.getD_eq_getElem Ls [] hi, hil]
    exact hvl
  · rintro ⟨i, hi⟩
    by_cases hlen : i < Ls.length
    · rw [List.getD_eq_getElem Ls [] hlen] at hi
      exact List.mem_flatten.mpr ⟨Ls[i], List.getElem_mem hlen, hi⟩
    · rw [List.getD_eq_default Ls [] (Nat.le_of_not_lt hlen)] at hi
      exact absurd hi (List.not_mem_nil v)

/-- Helper: with a duplicate-free flattening, a node determines its
level index. -/
theorem getD_unique (Ls : List (List String)) (hnd : Ls.flatten.Nodup) (v : String) :
    ∀ i j, v ∈ Ls.getD i [] → v ∈ Ls.getD j [] → i = j := by
  induction Ls with
  | nil =>
    intro i j hi _
    have h2 : ([] : List (List String)).getD i [] = [] := by cases i <;> rfl
    rw [h2] at hi
    exact absurd hi (List.not_mem_nil v)
  | cons L Ls ih =>
    intro i j hi hj
    rw [List.flatten_cons, List.nodup_append] at hnd
    obtain ⟨hL, hLs, hdisj⟩ := hnd
    cases i with
    | zero =>
      cases j with
      | zero => rfl
      | succ j =>
        exfalso
        have hvf : v ∈ Ls.flatten := (mem_flatten_exists_getD Ls v).mpr ⟨j, hj⟩
        exact hdisj hi hvf
    | succ i =>
      cases j with
      | zero =>
        exfalso
        have hvf : v ∈ Ls.flatten := (mem_flatten_exists_getD Ls v).mpr ⟨i, hi⟩
        exact hdisj hj hvf
      | succ j => exact congrArg Nat.succ (ih hLs i j hi hj)

/-- Helper: peeling one more level off the front of the union. -/
theorem UnionTake_succ (Ls : List (List String)) (i : Nat) :
    UnionTake Ls (i + 1) = UnionTake Ls i ++ Ls.getD i [] := by
  unfold UnionTake
  by_cases hlen : i < Ls.length
  · rw [List.take_succ, List.flatten_append, List.getD_eq_getElem Ls [] hlen]
    have : Ls[i]?.toList = [Ls[i]] := by
      rw [List.getElem?_eq_getElem hlen]
      rfl
    rw [this]
    simp
  · have hle := Nat.le_of_not_lt hlen
    rw [List.take_of_length_le hle, List.take_of_length_le (Nat.le_succ_of_le hle),
      List.getD_eq_default Ls [] hle, List.append_nil]

/-- Helper: membership in the union of the first `i` levels. -/
theorem mem_UnionTake (Ls : List (List String)) (v : String) :
    ∀ i, v ∈ UnionTake Ls i ↔ ∃ j, j < i ∧ v ∈ Ls.getD j [] := by
  intro i
  induction i with
  | zero =>
    constructor
    · intro h
      exact absurd h (List.not_mem_nil v)
    · rintro ⟨j, hj, -⟩
      exact absurd hj (Nat.not_lt_zero j)
  | succ i ih =>
    rw [UnionTake_succ, List.mem_append, ih]
    constructor
    · rintro (⟨j, hj, hv⟩ | hv)
      · exact ⟨j, Nat.lt_succ_of_lt hj, hv⟩
      · exact ⟨i, Nat.lt_succ_self i, hv⟩
    · rintro ⟨j, hj, hv⟩
      rcases Nat.lt_succ_iff_lt_or_eq.mp hj with h | h
      · exact Or.inl ⟨j, h, hv⟩
      · exact Or.inr (h ▸ hv)

/-- Helper: extending a relation chain by one step at the far end. -/
theorem chain_snoc {R : String → String → Prop} :
    ∀ (rest : List String) (r z v : String), List.Chain R r rest →
      (r :: rest).getLast? = some z → R z v → List.Chain R r (rest ++ [v]) := by
  intro rest
  induction rest with
  | nil =>
    intro r z v _ hlast hR
    have hz : r = z := by
      have : (some r : Option String) = some z := hlast
      exact Option.some.inj this
    exact List.Chain.cons (hz ▸ hR) List.Chain.nil
  | cons w rest ih =>
    intro r z v hchain hlast hR
    rcases hchain with _ | ⟨hrw, hchain'⟩
    refine List.Chain.cons hrw (ih w z v hchain' ?_ hR)
    exact hlast

/-- Helper: peeling characterisation of a successful level computation:
each level holds exactly the unprocessed nodes whose counted in-edges
all come from earlier levels, and the levels are pairwise disjoint and
duplicate-free. -/
theorem get_execution_levels_spec (g : GraphValidator.Graph)
    (hwf : ∀ e ∈ g.edges, e.source_node_key ∈ keys g → e.target_node_key ∈ keys g)
    (Ls : List (List String)) (h : get_execution_levels g = .ok Ls) :
    (∀ i v, v ∈ Ls.getD i [] ↔
      (v ∈ keys g ∧ v ∉ UnionTake Ls i ∧
        ∀ e ∈ edges_into g v, e.source_node_key ∈ UnionTake Ls i)) ∧
    Ls.flatten.Nodup := by
  unfold get_execution_levels at h
  cases hinit : in_degree_init g with
  | error msg =>
    rw [hinit] at h
    simp at h
  | ok c =>
    rw [hinit] at h
    have hLs : kahnLoop g ((keys g).length + 1) c
        ((keys g).filter (fun k => c k = 0)) = Ls := Except.ok.inj h
    have hcur0 : ∀ v, v ∈ (keys g).filter (fun k => c k = 0) ↔
        (v ∈ keys g ∧ v ∉ ([] : List String) ∧
          ∀ e ∈ edges_into g v, e.source_node_key ∈ ([] : List String)) := by
      intro v
      rw [List.mem_filter]
      constructor
      · rintro ⟨hk, hc0⟩
        have hc0' : c v = 0 := by simpa using hc0
        rw [in_degree_init_ok g c hinit v] at hc0'
        have hdeg : in_degree g v = 0 := by exact_mod_cast hc0'
        have hnil : edges_into g v = [] := List.length_eq_zero.mp hdeg
        refine ⟨hk, List.not_mem_nil v, ?_⟩
        intro e he
        rw [hnil] at he
        exact absurd he (List.not_mem_nil e)
      · rintro ⟨hk, -, hpreds⟩
        refine ⟨hk, ?_⟩
        have hnil : edges_into g v = [] := by
          cases hev : edges_into g v with
          | nil => rfl
          | cons e es =>
            exact absurd (hpreds e (hev ▸ List.mem_cons_self e es))
              (List.not_mem_nil e.source_node_key)
        have hdeg : in_degree g v = 0 := by rw [in_degree, hnil]; rfl
        simp [in_degree_init_ok g c hinit v, hdeg]
    obtain ⟨hchar, hnd⟩ := kahnLoop_spec g hwf ((keys g).length + 1) c
      ((keys g).filter (fun k => c k = 0)) []
      (by simpa using List.Nodup.filter _ (keys_nodup g))
      (fun x hx => (List.mem_filter.mp
        ((List.mem_append.mp hx).resolve_left (List.not_mem_nil x))).1)
      (fun v _ => by simp [in_degree_init_ok g c hinit v, preds_in])
      (fun v hv => absurd hv (List.not_mem_nil v))
      hcur0
      (by simp)
    rw [hLs] at hchar hnd
    refine ⟨fun i v => ?_, by simpa using hnd⟩
    have h2 := hchar i v
    simpa using h2

/-- Helper: for an acyclic graph, a level list satisfying the peeling
characterisation covers every key: an uncovered key would start an
infinite predecessor chain, which pigeonholes into a cycle. -/
theorem levels_cover (g : GraphValidator.Graph)
    (hacyc : ¬ HasCycle g) (Ls : List (List String))
    (hchar : ∀ i v, v ∈ Ls.getD i [] ↔
      (v ∈ keys g ∧ v ∉ UnionTake Ls i ∧
        ∀ e ∈ edges_into g v, e.source_node_key ∈ UnionTake Ls i)) :
    ∀ v ∈ keys g, v ∈ Ls.flatten := by
  by_contra hcon
  push_neg at hcon
  obtain ⟨v0, hv0k, hv0f⟩ := hcon
  have hstep : ∀ x, x ∈ keys g → x ∉ Ls.flatten →
      ∃ u, u ∈ keys g ∧ u ∉ Ls.flatten ∧ EdgeStep g u x := by
    intro x hxk hxf
    have hgetD : Ls.getD Ls.length [] = [] :=
      List.getD_eq_default Ls [] (Nat.le_refl Ls.length)
    have hUT : UnionTake Ls Ls.length = Ls.flatten := by
      unfold UnionTake
      rw [List.take_length]
    have hnot : ¬ (x ∈ keys g ∧ x ∉ UnionTake Ls Ls.length ∧
        ∀ e ∈ edges_into g x, e.source_node_key ∈ UnionTake Ls Ls.length) := by
      intro hrhs
      have h2 := (hchar Ls.length x).mpr hrhs
      rw [hgetD] at h2
      exact absurd h2 (List.not_mem_nil x)
    rw [hUT] at hnot
    push_neg at hnot
    obtain ⟨e, he, hsrc⟩ := hnot hxk hxf
    obtain ⟨heg, hetgt, hesrck⟩ := (mem_edges_into g x e).mp he
    exact ⟨e.source_node_key, hesrck, hsrc, ⟨e, heg, rfl, hetgt⟩⟩
  have hf : ∀ x : {y : String // y ∈ keys g ∧ y ∉ Ls.flatten},
      ∃ u, u ∈ keys g ∧ u ∉ Ls.flatten ∧ EdgeStep g u x.1 :=
    fun x => hstep x.1 x.2.1 x.2.2
  classical
  have hseq : ∃ seq : Nat → {y : String // y ∈ keys g ∧ y ∉ Ls.flatten},
      ∀ n, EdgeStep g (seq (n + 1)).1 (seq n).1 := by
    refine ⟨fun n => (fun x => (⟨Classical.choose (hf x),
      (Classical.choose_spec (hf x)).1, (Classical.choose_spec (hf x)).2.1⟩ :
        {y : String // y ∈ keys g ∧ y ∉ Ls.flatten}))^[n] ⟨v0, hv0k, hv0f⟩, ?_⟩
    intro n
    dsimp only
    rw [Function.iterate_succ_apply']
    exact (Classical.choose_spec (hf _)).2.2
  obtain ⟨seq, hseqstep⟩ := hseq
  have htrans : ∀ d n, Relation.TransGen (EdgeStep g) (seq (n + d + 1)).1 (seq n).1 := by
    intro d
    induction d with
    | zero => intro n; exact Relation.TransGen.single (hseqstep n)
    | succ d ih =>
      intro n
      have hstep2 : EdgeStep g (seq (n + (d + 1) + 1)).1 (seq (n + d + 1)).1 := by
        have := hseqstep (n + d + 1)
        have harith : n + d + 1 + 1 = n + (d + 1) + 1 := by omega
        rw [harith] at this
        exact this
      exact Relation.TransGen.head hstep2 (ih n)
  have hmap : ∀ n ∈ Finset.range ((keys g).length + 1),
      (seq n).1 ∈ (keys g).toFinset := by
    intro n _
    rw [List.mem_toFinset]
    exact (seq n).2.1
  have hcard : ((keys g).toFinset).card < (Finset.range ((keys g).length + 1)).card := by
    rw [Finset.card_range]
    have : ((keys g).toFinset).card ≤ (keys g).length := (keys g).toFinset_card_le
    omega
  obtain ⟨i, hi, j, hj, hij, heq⟩ :=
    Finset.exists_ne_map_eq_of_card_lt_of_maps_to hcard hmap
  rcases Nat.lt_or_ge i j with hlt | hge
  · have hd : j = i + (j - i - 1) + 1 := by omega
    refine hacyc ⟨(seq j).1, ?_⟩
    have h2 := htrans (j - i - 1) i
    rw [← hd] at h2
    rw [heq] at h2
    exact h2
  · have hlt2 : j < i := by
      rcases Nat.lt_or_ge j i with h2 | h2
      · exact h2
      · exact absurd (Nat.le_antisymm h2 hge) hij
    have hd : i = j + (i - j - 1) + 1 := by omega
    refine hacyc ⟨(seq i).1, ?_⟩
    have h2 := htrans (i - j - 1) j
    rw [← hd] at h2
    rw [← heq] at h2
    exact h2

/-- Helper: under the peeling characterisation, a counted edge always
goes from a strictly earlier level to a later one. -/
theorem edge_level_lt (g : GraphValidator.Graph) (Ls : List (List String))
    (hchar : ∀ i v, v ∈ Ls.getD i [] ↔
      (v ∈ keys g ∧ v ∉ UnionTake Ls i ∧
        ∀ e ∈ edges_into g v, e.source_node_key ∈ UnionTake Ls i))
    (hnd : Ls.flatten.Nodup) (u v : String) (i j : Nat)
    (hu : u ∈ Ls.getD i []) (hv : v ∈ Ls.getD j [])
    (e : EdgeRec) (he : e ∈ edges_into g v) (hsrc : e.source_node_key = u) :
    i < j := by
  obtain ⟨-, -, hpreds⟩ := (hchar j v).mp hv
  have hu2 : u ∈ UnionTake Ls j := hsrc ▸ hpreds e he
  obtain ⟨k, hk, huk⟩ := (mem_UnionTake Ls u j).mp hu2
  have hki : k = i := getD_unique Ls hnd u k i huk hu
  omega

/-- Helper: along any chain of the digraph the level index rises at
least as fast as the chain length. -/
theorem chain_level_le (g : GraphValidator.Graph) (hwf : WellFormed g)
    (Ls : List (List String))
    (hchar : ∀ i v, v ∈ Ls.getD i [] ↔
      (v ∈ keys g ∧ v ∉ UnionTake Ls i ∧
        ∀ e ∈ edges_into g v, e.source_node_key ∈ UnionTake Ls i))
    (hnd : Ls.flatten.Nodup)
    (hcover : ∀ v ∈ keys g, v ∈ Ls.flatten) :
    ∀ (rest : List String) (r z : String) (a b : Nat),
      List.Chain (EdgeStep g) r rest → r ∈ Ls.getD a [] →
      (r :: rest).getLast? = some z → z ∈ Ls.getD b [] →
      a + rest.length ≤ b := by
  intro rest
  induction rest with
  | nil =>
    intro r z a b _ hra hlast hzb
    have hz : r = z := Option.some.inj hlast
    subst hz
    have hab : a = b := getD_unique Ls hnd r a b hra hzb
    simp only [List.length_nil]
    omega
  | cons w rest ih =>
    intro r z a b hchain hra hlast hzb
    rcases hchain with _ | ⟨hrw, hchain2⟩
    obtain ⟨e, heg, hes, het⟩ := hrw
    have hwk : w ∈ keys g := by
      rw [← het]
      exact (hwf e heg).2
    obtain ⟨cw, hwcw⟩ := (mem_flatten_exists_getD Ls w).mp (hcover w hwk)
    have hedge : e ∈ edges_into g w := by
      refine (mem_edges_into g w e).mpr ⟨heg, het, ?_⟩
      rw [hes]
      exact ((hchar a r).mp hra).1
    have hacw : a < cw := edge_level_lt g Ls hchar hnd r w a cw hra hwcw e hedge hes
    have hlast2 : (w :: rest).getLast? = some z := by
      rw [List.getLast?_cons_cons] at hlast
      exact hlast
    have hle : cw + rest.length ≤ b := ih w z cw b hchain2 hwcw hlast2 hzb
    simp only [List.length_cons]
    omega

/-- Helper: a node of level `i` is reached by a root path of exactly
`i + 1` vertices. -/
theorem level_path_exists (g : GraphValidator.Graph) (Ls : List (List String))
    (hchar : ∀ i v, v ∈ Ls.getD i [] ↔
      (v ∈ keys g ∧ v ∉ UnionTake Ls i ∧
        ∀ e ∈ edges_into g v, e.source_node_key ∈ UnionTake Ls i)) :
    ∀ (i : Nat) (v : String), v ∈ Ls.getD i [] →
      ∃ p, RootPath g p v ∧ p.length = i + 1 := by
  intro i
  induction i with
  | zero =>
    intro v hv
    obtain ⟨hk, -, hpreds⟩ := (hchar 0 v).mp hv
    have hnil : edges_into g v = [] := by
      cases hev : edges_into g v with
      | nil => rfl
      | cons e es =>
        have h2 := hpreds e (hev ▸ List.mem_cons_self e es)
        exact absurd h2 (List.not_mem_nil e.source_node_key)
    refine ⟨[v], ⟨⟨v, [], rfl, ?_, List.Chain.nil⟩, rfl⟩, rfl⟩
    rw [in_degree, hnil]
    rfl
  | succ i ih =>
    intro v hv
    obtain ⟨hk, hnotin, hpreds⟩ := (hchar (i + 1) v).mp hv
    have hex : ∃ e ∈ edges_into g v, e.source_node_key ∉ UnionTake Ls i := by
      by_contra hall
      push_neg at hall
      have hnotin2 : v ∉ UnionTake Ls i := by
        intro hmem
        obtain ⟨j, hj, hvj⟩ := (mem_UnionTake Ls v i).mp hmem
        exact hnotin ((mem_UnionTake Ls v (i + 1)).mpr ⟨j, Nat.lt_succ_of_lt hj, hvj⟩)
      have hvin : v ∈ Ls.getD i [] := (hchar i v).mpr ⟨hk, hnotin2, hall⟩
      exact hnotin ((mem_UnionTake Ls v (i + 1)).mpr ⟨i, Nat.lt_succ_self i, hvin⟩)
    obtain ⟨e, he, hesrc⟩ := hex
    obtain ⟨j, hj, hsj⟩ := (mem_UnionTake Ls e.source_node_key (i + 1)).mp (hpreds e he)
    have hji : j = i := by
      rcases Nat.lt_succ_iff_lt_or_eq.mp hj with h2 | h2
      · exact absurd ((mem_UnionTake Ls e.source_node_key i).mpr ⟨j, h2, hsj⟩) hesrc
      · exact h2
    subst hji
    obtain ⟨p, hp, hplen⟩ := ih e.source_node_key hsj
    obtain ⟨⟨r, rest, hpre, hindeg, hchain⟩, hlast⟩ := hp
    have hEdge : EdgeStep g e.source_node_key v := by
      obtain ⟨heg, htgt, -⟩ := (mem_edges_into g v e).mp he
      exact ⟨e, heg, rfl, htgt⟩
    refine ⟨p ++ [v], ⟨⟨r, rest ++ [v], by rw [hpre]; rfl, hindeg, ?_⟩, ?_⟩, ?_⟩
    · refine chain_snoc rest r e.source_node_key v hchain ?_ hEdge
      rw [← hpre]
      exact hlast
    · rw [List.getLast?_concat]
    · rw [List.length_append, hplen]
      rfl

/-- Helper: a node of level `i` admits no root path longer than `i + 1`
vertices. -/
theorem level_path_le (g : GraphValidator.Graph) (hwf : WellFormed g)
    (Ls : List (List String))
    (hchar : ∀ i v, v ∈ Ls.getD i [] ↔
      (v ∈ keys g ∧ v ∉ UnionTake Ls i ∧
        ∀ e ∈ edges_into g v, e.source_node_key ∈ UnionTake Ls i))
    (hnd : Ls.flatten.Nodup)
    (hcover : ∀ v ∈ keys g, v ∈ Ls.flatten) :
    ∀ (i : Nat) (v : String), v ∈ Ls.getD i [] →
      ∀ p, RootPath g p v → p.length ≤ i + 1 := by
  intro i v hv p hp
  obtain ⟨⟨r, rest, hpre, hindeg, hchain⟩, hlast⟩ := hp
  have hrk : r ∈ keys g := by
    cases rest with
    | nil =>
      have hrv : r = v := by
        rw [hpre] at hlast
        exact Option.some.inj hlast
      rw [hrv]
      exact ((hchar i v).mp hv).1
    | cons w rest2 =>
      rcases hchain with _ | ⟨hrw, -⟩
      obtain ⟨e, heg, hes, -⟩ := hrw
      rw [← hes]
      exact (hwf e heg).1
  have hr0 : r ∈ Ls.getD 0 [] := by
    refine (hchar 0 r).mpr ⟨hrk, ?_, ?_⟩
    · intro hmem
      exact absurd hmem (List.not_mem_nil r)
    · intro e he
      exfalso
      have hnil : edges_into g r = [] := List.length_eq_zero.mp hindeg
      rw [hnil] at he
      exact absurd he (List.not_mem_nil e)
  have hz : (r :: rest).getLast? = some v := by
    rw [← hpre]
    exact hlast
  have hle := chain_level_le g hwf Ls hchar hnd hcover rest r v 0 i hchain hr0 hz hv
  rw [hpre]
  simp only [List.length_cons]
  omega

/-- Helper: a rank function increasing along every edge certifies
acyclicity. -/
theorem acyclic_of_rank (g : GraphValidator.Graph) (rank : String → Nat)
    (h : ∀ e ∈ g.edges, rank e.source_node_key < rank e.target_node_key) :
    ¬ HasCycle g := by
  rintro ⟨u, hcyc⟩
  have hmono : ∀ a b, Relation.TransGen (EdgeStep g) a b → rank a < rank b := by
    intro a b htg
    induction htg with
    | single hstep =>
      obtain ⟨e, he, hs, ht⟩ := hstep
      rw [← hs, ← ht]
      exact h e he
    | tail _ hstep ih =>
      obtain ⟨e, he, hs, ht⟩ := hstep
      refine Nat.lt_trans ih ?_
      rw [← hs, ← ht]
      exact h e he
  exact Nat.lt_irrefl _ (hmono u u hcyc)

/-- C9: for every well-formed acyclic graph whose level computation
succeeds with level list `Ls`, level `i` holds exactly the keys outside
the earlier levels all of whose counted incoming edges come from
earlier levels (so level 0 is exactly the in-degree-0 keys and each
later level is the next peeling set); every key appears in exactly one
level; and each node of level `i` is reached by a root path of exactly
`i + 1` vertices while no root path to it is longer — its level is the
longest-path distance from the roots. -/
theorem c9_levels (g : GraphValidator.Graph) (hwf : WellFormed g)
    (hacyc : ¬ HasCycle g) (Ls : List (List String))
    (hlv : get_execution_levels g = .ok Ls) :
    (∀ i v, v ∈ Ls.getD i [] ↔
      (v ∈ keys g ∧ v ∉ UnionTake Ls i ∧
        ∀ e ∈ edges_into g v, e.source_node_key ∈ UnionTake Ls i)) ∧
    (∀ v ∈ keys g, ∃ i, v ∈ Ls.getD i [] ∧ ∀ j, v ∈ Ls.getD j [] → j = i) ∧
    (∀ i v, v ∈ Ls.getD i [] →
      (∃ p, RootPath g p v ∧ p.length = i + 1) ∧
      (∀ p, RootPath g p v → p.length ≤ i + 1)) := by
  have hwf2 : ∀ e ∈ g.edges, e.source_node_key ∈ keys g → e.target_node_key ∈ keys g :=
    fun e he _ => (hwf e he).2
  obtain ⟨hchar, hnd⟩ := get_execution_levels_spec g hwf2 Ls hlv
  have hcover := levels_cover g hacyc Ls hchar
  refine ⟨hchar, ?_, ?_⟩
  · intro v hvk
    obtain ⟨i, hvi⟩ := (mem_flatten_exists_getD Ls v).mp (hcover v hvk)
    exact ⟨i, hvi, fun j hvj => getD_unique Ls hnd v j i hvj hvi⟩
  · intro i v hvi
    exact ⟨level_path_exists g Ls hchar i v hvi,
      level_path_le g hwf Ls hchar hnd hcover i v hvi⟩

/-- C9 witness: the diamond DAG `a → \x7bb, c\x7d → d` is well formed and
acyclic (certified by a rank function), its computed levels are
`[[a], [b, c], [d]]`, and the peeling, uniqueness and longest-path
properties hold for that level list. -/
theorem c9_levels_witness :
    WellFormed gDiamond ∧
    get_execution_levels gDiamond = .ok [["a"], ["b", "c"], ["d"]] ∧
    ((∀ i v, v ∈ [["a"], ["b", "c"], ["d"]].getD i [] ↔
      (v ∈ keys gDiamond ∧ v ∉ UnionTake [["a"], ["b", "c"], ["d"]] i ∧
        ∀ e ∈ edges_into gDiamond v,
          e.source_node_key ∈ UnionTake [["a"], ["b", "c"], ["d"]] i)) ∧
    (∀ v ∈ keys gDiamond, ∃ i, v ∈ [["a"], ["b", "c"], ["d"]].getD i [] ∧
      ∀ j, v ∈ [["a"], ["b", "c"], ["d"]].getD j [] → j = i) ∧
    (∀ i v, v ∈ [["a"], ["b", "c"], ["d"]].getD i [] →
      (∃ p, RootPath gDiamond p v ∧ p.length = i + 1) ∧
      (∀ p, RootPath gDiamond p v → p.length ≤ i + 1))) :=
⟨by unfold WellFormed; decide, rfl,
  c9_levels gDiamond (by unfold WellFormed; decide)
    (acyclic_of_rank gDiamond rankDiamond (by decide))
    [["a"], ["b", "c"], ["d"]] rfl⟩

end Docmod
